import Mathlib

/-!
Verification of the projection-normalization and distribution-comparison
engine of the `monte_carlo_fantasy_football` frontend.

The definitions below are shallow embeddings of the JavaScript functions in
`ff_react/src/App.jsx` (and its near-duplicate revisions in the repository):
`ecdfFromValues`, `cdfPairsToPercentSeries`, `parseHalfPPR`, `buildSeries`,
`mergeSeries`, `maxYValue`, `flattenObject` and `resolveByRegexFlat`.

Modelling conventions:
* JavaScript finite numbers are rationals (`ℚ`); the result of the JavaScript
  coercion `Number(v)` is embedded as an `Option ℚ`, where `none` stands for a
  non-finite result (`NaN`, `±Infinity`) — every use of `Number` in the engine
  is immediately guarded by `Number.isFinite`, which identifies exactly the
  `some` values.  String-to-number parsing (including the comma stripping that
  `ecdfFromValues` performs on string samples) happens inside that coercion
  boundary and is not re-modelled; the embedded functions receive the coercion
  results.
* `Array.prototype.sort` with comparator `(a, b) => a.x - b.x` is a stable
  sort by `x`; a stable sort is uniquely determined by its comparator, so it
  is embedded as `List.insertionSort` (Mathlib's insertion sort is stable).
* All embedded functions are total Lean functions; the JavaScript originals
  signal "nothing to render" with `null`, embedded as `none`.
-/

/-- A chart point `{x, y}` with both coordinates finite. -/
structure Point where
  x : ℚ
  y : ℚ
deriving DecidableEq, Repr

/-- A merged chart row `{x, A, B}`; `none` is JavaScript `null`. -/
structure MergedRow where
  x : ℚ
  A : Option ℚ
  B : Option ℚ
deriving DecidableEq, Repr

/-- Ordering of points by their `x` coordinate, as used by the comparator
`(a, b) => a.x - b.x`. -/
def ptLE (a b : Point) : Prop := a.x ≤ b.x

instance : DecidableRel ptLE := fun a b => inferInstanceAs (Decidable (a.x ≤ b.x))

instance : IsTotal Point ptLE := ⟨fun a b => le_total a.x b.x⟩

instance : IsTrans Point ptLE := ⟨fun _ _ _ h h2 => le_trans h h2⟩

/-- `series.sort((a, b) => a.x - b.x)`: stable sort of points by `x`. -/
def sortByX (l : List Point) : List Point := l.insertionSort ptLE

/-- One element of a `{x, cdf}` / `{pts, pct}` / `{x, y}` pair array after
`Number` coercion of the two fields: `(Number(d.x), Number(d.cdf))`, with
`none` marking a non-finite coordinate.  This represents an element on which
the property accesses succeeded (any element other than `null`/`undefined`;
on non-objects the accesses yield `undefined`, hence `(none, none)`).
Elements on which property access itself throws are modelled by
`PairElem.nullish` below. -/
abbrev RawPair := Option ℚ × Option ℚ

/-- The filter `Number.isFinite(d.x) && Number.isFinite(d.y)` fused with the
preceding coercion `map`: keeps exactly the pairs with both coordinates
finite. -/
def finitePair : RawPair → Option Point
  | (some x, some y) => some ⟨x, y⟩
  | _ => none

/-- `Math.min(a, b)` on two (finite) numbers. -/
def jsMin (a b : ℚ) : ℚ := if a ≤ b then a else b

/-- `Math.max(a, b)` on two (finite) numbers. -/
def jsMax (a b : ℚ) : ℚ := if a ≤ b then b else a

theorem jsMin_eq (a b : ℚ) : jsMin a b = min a b := (min_def a b).symm

theorem jsMax_eq (a b : ℚ) : jsMax a b = max a b := by
  rw [jsMax]
  rcases le_or_lt a b with h | h
  · rw [if_pos h, max_eq_right h]
  · rw [if_neg h.not_le, max_eq_left h.le]

/-- `Math.max(0, Math.min(100, v))`. -/
def clampPercent (v : ℚ) : ℚ := jsMax 0 (jsMin 100 v)

theorem clampPercent_eq (v : ℚ) : clampPercent v = max 0 (min 100 v) := by
  rw [clampPercent, jsMin_eq, jsMax_eq]

/-- Embeds the value processing of `cdfPairsToPercentSeries` (App.jsx lines
59–67) downstream of the element map: the argument is `none` when the payload
is not an array (`!Array.isArray(arr)`), otherwise the list of
`(Number(d.x), Number(d.cdf))` coercion results of its elements.  The map
itself throws a `TypeError` on a `null`/`undefined` element; that error path
is embedded by `cdfPairsToPercentSeriesJS` below, which delegates here on the
throw-free path. -/
def cdfPairsToPercentSeries (arr : Option (List RawPair)) : Option (List Point) :=
  match arr with
  | none => none
  | some l =>
    if l = [] then none
    else
      let series := (sortByX (l.filterMap finitePair)).map
        (fun d => ⟨d.x, clampPercent (if d.y ≤ 1 then d.y * 100 else d.y)⟩)
      if series = [] then none else some series

/-- Embeds `buildSeries` (part_003 lines 433–444).  The argument is `none`
when the projection is null or `projection?.[chartKey]` is not an array,
otherwise the list of `(Number(d.x), Number(d.y))` coercion results. -/
def buildSeries (data : Option (List RawPair)) : Option (List Point) :=
  match data with
  | none => none
  | some l =>
    if l = [] then none
    else
      let series := sortByX (l.filterMap finitePair)
      if series = [] then none else some series

/-- The input of the value-processing core of `parseHalfPPR` (part_002 lines
14–44) after the string and `JSON.parse` stages: `notString` for a falsy or
non-string argument, `unparsable` when `JSON.parse` throws, `nonArray` when
the parsed JSON is not an array, and `array bins` for a parsed array whose
elements are represented by their `(Number(b.pts), Number(b.pct))` coercion
results — which presupposes the property accesses succeed.  The `arr.map`
performing them sits outside the `try` that guards only `JSON.parse`, so a
`null` element throws an uncaught `TypeError`; that error path is embedded by
`parseHalfPPRJS` below, which delegates here on the throw-free path. -/
inductive HalfPPRPayload where
  | notString
  | unparsable
  | nonArray
  | array (bins : List RawPair)

/-- `bins.every((b, i) => i === 0 || b.pct >= bins[i - 1].pct)`. -/
def nonDecrY : List Point → Bool
  | [] => true
  | [_] => true
  | a :: b :: t => (a.y ≤ b.y) && nonDecrY (b :: t)

/-- The probability-mass branch of `parseHalfPPR`: running cumulative sum of
`b.pct * scale`, each partial sum clamped into `[0, 100]`. -/
def cumRun (scale : ℚ) (cum : ℚ) : List Point → List Point
  | [] => []
  | b :: rest =>
    ⟨b.x, clampPercent (cum + b.y * scale)⟩ :: cumRun scale (cum + b.y * scale) rest

/-- Embeds `parseHalfPPR` (part_002 lines 14–44). -/
def parseHalfPPR : HalfPPRPayload → Option (List Point)
  | .notString => none
  | .unparsable => none
  | .nonArray => none
  | .array arr =>
    let bins := sortByX (arr.filterMap finitePair)
    if hb : bins = [] then none
    else if nonDecrY bins then
      let scale : ℚ := if (bins.getLast hb).y ≤ 1 then 100 else 1
      some (bins.map fun b => ⟨b.x, clampPercent (b.y * scale)⟩)
    else
      let total := (bins.map Point.y).sum
      let scale : ℚ := if total ≤ 1 then 100 else 1
      some (cumRun scale 0 bins)

/-- An element of a pair-array payload as the element map sees it:
`nullish` for a `null` or `undefined` element, on which the property access
`d.x` / `b.pts` throws a `TypeError`; `elem c` for any other element,
represented by its coercion results. -/
inductive PairElem where
  | nullish
  | elem (c : RawPair)
deriving DecidableEq, Repr

/-- Whether an element makes the property access throw. -/
def PairElem.isNullish : PairElem → Bool
  | .nullish => true
  | .elem _ => false

/-- The coercion results of a non-throwing element. -/
def PairElem.coords : PairElem → Option RawPair
  | .nullish => none
  | .elem c => some c

/-- The outcome of a JavaScript call: `thrown` when an uncaught exception
escapes, `ret v` on normal return. -/
inductive JsResult (α : Type) where
  | thrown
  | ret (v : α)
deriving DecidableEq, Repr

/-- Embeds `cdfPairsToPercentSeries` (App.jsx lines 59–67) on arbitrary array
payloads, including the error path: after the non-array/empty guard, the
element map `arr.map((d) => ({x: Number(d.x), y: Number(d.cdf)}))` throws a
`TypeError` as soon as the payload contains a `null`/`undefined` element
(nothing observable happens before the map); otherwise every element
contributes its coercion pair and the value-processing core runs. -/
def cdfPairsToPercentSeriesJS (arr : Option (List PairElem)) :
    JsResult (Option (List Point)) :=
  match arr with
  | none => .ret none
  | some l =>
    if l = [] then .ret none
    else if l.any PairElem.isNullish then .thrown
    else .ret (cdfPairsToPercentSeries (some (l.filterMap PairElem.coords)))

/-- The input of `parseHalfPPR` with array elements kept at the element
level (see `HalfPPRPayload`). -/
inductive HalfPPRPayloadJS where
  | notString
  | unparsable
  | nonArray
  | array (elems : List PairElem)

/-- Embeds `parseHalfPPR` (part_002 lines 14–44) on arbitrary payloads,
including the error path: the `arr.map` computing `(Number(b.pts),
Number(b.pct))` runs outside the `try` block (which guards only `JSON.parse`
and the array check), so a `null`/`undefined` element throws an uncaught
`TypeError`; otherwise the value-processing core runs on the coercion
results. -/
def parseHalfPPRJS : HalfPPRPayloadJS → JsResult (Option (List Point))
  | .notString => .ret none
  | .unparsable => .ret none
  | .nonArray => .ret none
  | .array elems =>
    if elems.any PairElem.isNullish then .thrown
    else .ret (parseHalfPPR (.array (elems.filterMap PairElem.coords)))

/-- The grouping loop of `ecdfFromValues` (App.jsx lines 49–55) over the
sorted finite samples: `seen` is the index `i` (number of samples already
consumed), `n` the total number of finite samples; each group of equal values
collapses to one point whose `y` is `((j + 1) / n) * 100` with `j + 1` the
index one past the last occurrence. -/
def ecdfGroup (n : ℕ) : ℕ → List ℚ → List Point
  | _, [] => []
  | seen, x :: rest =>
    let c := seen + (rest.takeWhile (fun v => v = x)).length + 1
    ⟨x, ((c : ℚ) / (n : ℚ)) * 100⟩ :: ecdfGroup n c (rest.dropWhile (fun v => v = x))
termination_by _ l => l.length
decreasing_by
  simp only [List.length_cons]
  exact Nat.lt_succ_of_le ((List.dropWhile_suffix _).sublist.length_le)

/-- Embeds `ecdfFromValues` (App.jsx lines 39–57).  The argument is `none`
when the payload is not an array, otherwise the list of coercion results of
its elements (comma-stripped and trimmed for strings, then `Number`; `none`
for a non-finite result). -/
def ecdfFromValues (values : Option (List (Option ℚ))) : Option (List Point) :=
  match values with
  | none => none
  | some l =>
    if l = [] then none
    else
      let nums := (l.filterMap id).insertionSort (· ≤ ·)
      if nums = [] then none
      else some (ecdfGroup nums.length 0 nums)

/-- The `stepAt` loop inside `mergeSeries` (App.jsx lines 88–96): walk the
series, remembering the `y` of every point with `d.x ≤ x`, and stop (`break`)
at the first point with `d.x > x`. -/
def stepGo (x : ℚ) : List Point → Option ℚ → Option ℚ
  | [], acc => acc
  | d :: rest, acc => if d.x ≤ x then stepGo x rest (some d.y) else acc

/-- `stepAt(series, x)`: `null` for a missing or empty series, otherwise the
result of the walk. -/
def stepAt (s : Option (List Point)) (x : ℚ) : Option ℚ :=
  match s with
  | none => none
  | some l => stepGo x l none

/-- `Set.prototype.add` on a set represented, in insertion order, as a
duplicate-free list. -/
def addToSet (s : List ℚ) (x : ℚ) : List ℚ := if x ∈ s then s else s ++ [x]

/-- Embeds `mergeSeries` (App.jsx lines 81–103): union of the `x` values of
both series (in first-appearance order, then sorted numerically), one row per
union element, each side filled by `stepAt`. -/
def mergeSeries (sA sB : Option (List Point)) : List MergedRow :=
  match sA, sB with
  | none, none => []
  | _, _ =>
    let xsList := (sA.getD []).map Point.x ++ (sB.getD []).map Point.x
    let xVals := (xsList.foldl addToSet []).insertionSort (· ≤ ·)
    xVals.map fun x => ⟨x, stepAt sA x, stepAt sB x⟩

/-- `Math.max(...l)` for a list of already-computed values (the callers only
spread non-empty lists; the `[]` case is unreachable there). -/
def maxList : List ℚ → ℚ
  | [] => 0
  | a :: l => l.foldl jsMax a

/-- Embeds the `maxYValue` memo (part_003 lines 650–661): default ceiling 20,
extended to `Math.ceil(maxVal / 10) * 10` when the largest merged value
(`null` read as 0 via `?? 0`) exceeds 20. -/
def maxYValue (rows : List MergedRow) : ℚ :=
  if rows = [] then 20
  else
    let maxA := maxList (rows.map fun d => d.A.getD 0)
    let maxB := maxList (rows.map fun d => d.B.getD 0)
    let maxVal := jsMax maxA maxB
    if 20 < maxVal then ((⌈maxVal / 10⌉ : ℤ) : ℚ) * 10 else 20

/-- A JavaScript value as seen by the flattener and the stat resolver. -/
inductive JSVal where
  | vnull
  | vundefined
  | vbool (b : Bool)
  | vnum (q : Option ℚ)
  | vstr (s : String)
  | varr (elems : List JSVal)
  | vobj (fields : List (String × JSVal))
deriving Repr

/-- `prefix ? prefix + "." + k : k` — the flattened key of entry `k` under an
accumulated path (the source computes `base = prefix ? prefix + "." : ""` and
then `base + k`). -/
def joinKey (pre k : String) : String := if pre = "" then k else pre ++ "." ++ k

/-- `out[key] = v` on a JavaScript object represented, in insertion order, as
an association list: overwrite in place if the key exists, append otherwise. -/
def objAssign (out : List (String × JSVal)) (k : String) (v : JSVal) :
    List (String × JSVal) :=
  if out.any (fun p => p.1 = k) then
    out.map fun p => if p.1 = k then (k, v) else p
  else out ++ [(k, v)]

mutual

/-- The body of the `for (const [k, v] of Object.entries(obj))` loop of
`flattenObject` (App.jsx lines 206–213) for a single entry: a truthy,
non-array object value is recursed into (the recursive
`flattenObject(v, key, out)` call is unfolded one step to its object case,
i.e. the loop over the fields of `v`), anything else is assigned as a leaf. -/
def flattenEntry (k : String) (v : JSVal) (pre : String)
    (out : List (String × JSVal)) : List (String × JSVal) :=
  match v with
  | .vobj fs => flattenFields fs (joinKey pre k) out
  | _ => objAssign out (joinKey pre k) v

/-- The `Object.entries` loop of `flattenObject` over the fields of an
object, in insertion order. -/
def flattenFields (fs : List (String × JSVal)) (pre : String)
    (out : List (String × JSVal)) : List (String × JSVal) :=
  match fs with
  | [] => out
  | (k, v) :: rest => flattenFields rest pre (flattenEntry k v pre out)

end

/-- The `Object.entries` loop of `flattenObject` when the traversed value is
an array (only reachable for an array at the root): entries are the elements
keyed by their decimal indices. -/
def flattenArr (l : List JSVal) (i : ℕ) (pre : String)
    (out : List (String × JSVal)) : List (String × JSVal) :=
  match l with
  | [] => out
  | v :: rest => flattenArr rest (i + 1) pre (flattenEntry (toString i) v pre out)

/-- Embeds `flattenObject` (App.jsx lines 199–215): `null`/`undefined` add
nothing, a non-object root is assigned at key `prefix || ""`, and objects and
arrays are traversed entry by entry. -/
def flattenObject (v : JSVal) (pre : String) (out : List (String × JSVal)) :
    List (String × JSVal) :=
  match v with
  | .vnull => out
  | .vundefined => out
  | .vbool b => objAssign out pre (.vbool b)
  | .vnum q => objAssign out pre (.vnum q)
  | .vstr s => objAssign out pre (.vstr s)
  | .varr l => flattenArr l 0 pre out
  | .vobj fs => flattenFields fs pre out

/-- An include/exclude rule; a pattern is embedded as the (total, pure)
predicate `key ↦ re.test(key)` of its regex. -/
structure Rule where
  includePats : List (String → Bool)
  excludePats : List (String → Bool)

/-- `include.every((re) => re.test(key)) && !exclude.some((re) => re.test(key))`
on the lower-cased key. -/
def keyMatches (r : Rule) (k : String) : Bool :=
  r.includePats.all (fun re => re k.toLower) &&
    !(r.excludePats.any (fun re => re k.toLower))

/-- `v == null || ["string", "number", "boolean"].includes(typeof v)`. -/
def isScalar : JSVal → Bool
  | .varr _ => false
  | .vobj _ => false
  | _ => true

/-- `(isScalar(val) ? 2 : 0) + include.length`. -/
def scoreOf (r : Rule) (v : JSVal) : ℕ :=
  (if isScalar v then 2 else 0) + r.includePats.length

/-- The candidate loop of `resolveByRegexFlat` (App.jsx lines 224–232):
skip keys failing the rule, keep the running best, replacing it only on a
strictly greater score (`score > best.score`). -/
def resolveLoop (r : Rule) : List (String × JSVal) → Option (String × JSVal) →
    Option (String × JSVal)
  | [], best => best
  | (k, v) :: rest, none =>
    if keyMatches r k then resolveLoop r rest (some (k, v))
    else resolveLoop r rest none
  | (k, v) :: rest, some b =>
    if keyMatches r k then
      if scoreOf r b.2 < scoreOf r v then resolveLoop r rest (some (k, v))
      else resolveLoop r rest (some b)
    else resolveLoop r rest (some b)

/-- Embeds `resolveByRegexFlat` (App.jsx lines 218–234).  A falsy or
non-object record returns `undefined`; otherwise the record is flattened and
the loop picks the best candidate.  JavaScript cannot distinguish a returned
`undefined` leaf from the no-candidate `undefined`, and neither does this
embedding: both are `JSVal.vundefined`. -/
def resolveByRegexFlat (obj : JSVal) (r : Rule) : JSVal :=
  match obj with
  | .varr _ | .vobj _ =>
    match resolveLoop r (flattenObject obj "" []) none with
    | some b => b.2
    | none => .vundefined
  | _ => .vundefined

/-! ### Claim-side specification definitions -/

/-- The value required by the step-hold specification: the `y` of the latest
point of the series whose `x` does not exceed the row's `x`, or `none` when
the series has no point at or before it. -/
def lastAtOrBefore (l : List Point) (x : ℚ) : Option ℚ :=
  ((l.filter fun d => d.x ≤ x).getLast?).map Point.y

/-! ### Sorting helpers -/

theorem sortByX_perm (l : List Point) : List.Perm (sortByX l) l := List.perm_insertionSort ptLE l

theorem sortByX_sorted (l : List Point) : (sortByX l).Sorted ptLE :=
  List.sorted_insertionSort ptLE l

theorem sortByX_map_x_sorted (l : List Point) :
    ((sortByX l).map Point.x).Sorted (· ≤ ·) := by
  rw [List.Sorted, List.pairwise_map]
  exact sortByX_sorted l

theorem sortByX_eq_self {l : List Point} (h : l.Sorted ptLE) : sortByX l = l :=
  h.insertionSort_eq

/-! ### The step-hold lemma for `mergeSeries` (claim C1) -/

theorem getLast?_cons_or (a : α) (l : List α) :
    (a :: l).getLast? = (l.getLast?).or (some a) := by
  induction l with
  | nil => rfl
  | cons b t _ =>
    rw [List.getLast?_cons_cons]
    have hne : (b :: t).getLast?.isSome := List.getLast?_isSome.mpr (by simp)
    rcases Option.isSome_iff_exists.mp hne with ⟨c, hc⟩
    simp [hc]

theorem stepGo_eq (x : ℚ) : ∀ (l : List Point), ((l.map Point.x).Sorted (· ≤ ·)) →
    ∀ acc, stepGo x l acc = (lastAtOrBefore l x).or acc
  | [], _, acc => by simp [stepGo, lastAtOrBefore]
  | d :: rest, hl, acc => by
    have hl' : (rest.map Point.x).Sorted (· ≤ ·) := by
      rw [List.Sorted, List.pairwise_map] at hl ⊢
      exact hl.of_cons
    have hrel : ∀ e ∈ rest, d.x ≤ e.x := by
      rw [List.Sorted, List.pairwise_map] at hl
      exact fun e he => List.rel_of_pairwise_cons hl he
    rw [stepGo]
    by_cases hdx : d.x ≤ x
    · rw [if_pos hdx, stepGo_eq x rest hl' (some d.y)]
      have hfc : (d :: rest).filter (fun d => d.x ≤ x) =
          d :: rest.filter (fun d => d.x ≤ x) := by
        rw [List.filter_cons_of_pos (by simpa using hdx)]
      rw [lastAtOrBefore, lastAtOrBefore, hfc, getLast?_cons_or, Option.map_or',
        Option.or_assoc]
      rfl
    · rw [if_neg hdx]
      have hfn : (d :: rest).filter (fun d => d.x ≤ x) = [] := by
        rw [List.filter_eq_nil_iff]
        intro e he
        rcases List.mem_cons.mp he with rfl | he'
        · simpa using hdx
        · have : d.x ≤ e.x := hrel e he'
          simp only [decide_eq_true_eq]
          intro hex
          exact hdx (le_trans this hex)
      rw [lastAtOrBefore, hfn]
      rfl

theorem stepAt_eq (s : Option (List Point)) (x : ℚ)
    (hs : ((s.getD []).map Point.x).Sorted (· ≤ ·)) :
    stepAt s x = lastAtOrBefore (s.getD []) x := by
  cases s with
  | none => simp [stepAt, lastAtOrBefore]
  | some l =>
    rw [stepAt, stepGo_eq x l (by simpa using hs) none, Option.or_none]
    rfl

/-! ### The `Set` union inside `mergeSeries` -/

theorem mem_addToSet {s : List ℚ} {x v : ℚ} : v ∈ addToSet s x ↔ v ∈ s ∨ v = x := by
  rw [addToSet]
  by_cases hx : x ∈ s
  · rw [if_pos hx]
    refine ⟨Or.inl, fun h => ?_⟩
    rcases h with h | rfl
    · exact h
    · exact hx
  · rw [if_neg hx]
    simp

theorem nodup_addToSet {s : List ℚ} (x : ℚ) (hs : s.Nodup) : (addToSet s x).Nodup := by
  rw [addToSet]
  by_cases hx : x ∈ s
  · rwa [if_pos hx]
  · rw [if_neg hx, ← List.concat_eq_append]
    exact hs.concat hx

theorem mem_foldl_addToSet : ∀ (xs init : List ℚ) (v : ℚ),
    v ∈ xs.foldl addToSet init ↔ v ∈ init ∨ v ∈ xs
  | [], init, v => by simp
  | x :: xs, init, v => by
    rw [List.foldl_cons, mem_foldl_addToSet xs (addToSet init x) v, mem_addToSet]
    simp only [List.mem_cons]
    tauto

theorem nodup_foldl_addToSet : ∀ (xs init : List ℚ), init.Nodup →
    (xs.foldl addToSet init).Nodup
  | [], _, h => h
  | x :: xs, init, h =>
    nodup_foldl_addToSet xs (addToSet init x) (nodup_addToSet x h)

theorem mergeSeries_eq_body (sA sB : Option (List Point)) (h : ¬(sA = none ∧ sB = none)) :
    mergeSeries sA sB =
      ((((sA.getD []).map Point.x ++ (sB.getD []).map Point.x).foldl addToSet
          []).insertionSort (· ≤ ·)).map
        (fun x => ⟨x, stepAt sA x, stepAt sB x⟩) := by
  cases sA <;> cases sB
  · exact absurd ⟨rfl, rfl⟩ h
  · rfl
  · rfl
  · rfl

/-- Claim C1: for sorted (possibly missing) input series, `mergeSeries`
produces one row per distinct `x` in the union of the two series' `x` values,
and each side of a row carries the `y` of the latest point of that side's
series at or before the row's `x` (`none` when there is no such point). -/
theorem mergeSeries_stepHold (sA sB : Option (List Point))
    (hA : ((sA.getD []).map Point.x).Sorted (· ≤ ·))
    (hB : ((sB.getD []).map Point.x).Sorted (· ≤ ·)) :
    ((mergeSeries sA sB).map MergedRow.x).Nodup ∧
    (∀ v : ℚ, v ∈ (mergeSeries sA sB).map MergedRow.x ↔
      v ∈ (sA.getD []).map Point.x ∨ v ∈ (sB.getD []).map Point.x) ∧
    ∀ row ∈ mergeSeries sA sB,
      row.A = lastAtOrBefore (sA.getD []) row.x ∧
      row.B = lastAtOrBefore (sB.getD []) row.x := by
  by_cases hnn : sA = none ∧ sB = none
  · rcases hnn with ⟨rfl, rfl⟩
    refine ⟨by simp [mergeSeries], fun v => by simp [mergeSeries], ?_⟩
    intro row hrow
    simp [mergeSeries] at hrow
  · rw [mergeSeries_eq_body sA sB hnn]
    set xsList := (sA.getD []).map Point.x ++ (sB.getD []).map Point.x with hxs
    set xVals := (xsList.foldl addToSet []).insertionSort (· ≤ ·) with hxv
    have hmapx : (xVals.map (fun x => (⟨x, stepAt sA x, stepAt sB x⟩ :
        MergedRow))).map MergedRow.x = xVals := by
      rw [List.map_map]
      exact List.map_id _
    refine ⟨?_, ?_, ?_⟩
    · rw [hmapx]
      exact ((List.perm_insertionSort _ _).symm).nodup
        (nodup_foldl_addToSet xsList [] List.nodup_nil)
    · intro v
      rw [hmapx, hxv, (List.perm_insertionSort _ _).mem_iff,
        mem_foldl_addToSet xsList [] v, hxs, List.mem_append]
      simp
    · intro row hrow
      rcases List.mem_map.mp hrow with ⟨x, _, rfl⟩
      exact ⟨stepAt_eq sA x hA, stepAt_eq sB x hB⟩

/-- Witness for C1, at the spec's own example: series A `[(0,0),(10,50)]`,
series B `[(5,20)]`. -/
theorem mergeSeries_stepHold_witness :
    ((([⟨0, 0⟩, ⟨10, 50⟩] : List Point).map Point.x).Sorted (· ≤ ·)) ∧
    ((([⟨5, 20⟩] : List Point).map Point.x).Sorted (· ≤ ·)) ∧
    mergeSeries (some [⟨0, 0⟩, ⟨10, 50⟩]) (some [⟨5, 20⟩]) =
      [⟨0, some 0, none⟩, ⟨5, some 0, some 20⟩, ⟨10, some 50, some 20⟩] ∧
    ∀ row ∈ mergeSeries (some [⟨0, 0⟩, ⟨10, 50⟩]) (some [⟨5, 20⟩]),
      row.A = lastAtOrBefore [⟨0, 0⟩, ⟨10, 50⟩] row.x ∧
      row.B = lastAtOrBefore [⟨5, 20⟩] row.x := by
  refine ⟨by decide, by decide, by decide, ?_⟩
  exact (mergeSeries_stepHold (some [⟨0, 0⟩, ⟨10, 50⟩]) (some [⟨5, 20⟩])
    (by decide) (by decide)).2.2

/-! ### Pair-array helpers (claims C3, C4, C5, C6) -/

/-- A fully-finite pair array round-trips through the coercion/filter stage. -/
theorem filterMap_finitePair_map (pts : List Point) :
    (pts.map fun p => ((some p.x, some p.y) : RawPair)).filterMap finitePair = pts := by
  rw [List.filterMap_map]
  have : (finitePair ∘ fun p : Point => ((some p.x, some p.y) : RawPair)) =
      some ∘ fun p : Point => p := by
    funext p
    rfl
  rw [this, List.filterMap_eq_map]
  exact List.map_id' pts

/-- In a `(· ≤ ·)`-sorted list of rationals every element is bounded by the
last one. -/
theorem sorted_all_le_last : ∀ {l : List ℚ}, l.Sorted (· ≤ ·) →
    ∀ a ∈ l, ∀ b ∈ l.getLast?, a ≤ b
  | [], _, a, ha => by simp at ha
  | c :: t, h, a, ha => by
    intro b hb
    rcases List.sorted_cons.mp h with ⟨hc, ht⟩
    cases t with
    | nil =>
      simp at ha hb
      rw [ha, ← hb]
    | cons d t' =>
      rw [List.getLast?_cons_cons] at hb
      rcases List.mem_cons.mp ha with rfl | ha'
      · exact le_trans (hc d (by simp))
          (sorted_all_le_last ht d (by simp) b hb)
      · exact sorted_all_le_last ht a ha' b hb

/-- Counterexample to claim C3 as stated: the pair array
`[(0, -1), (10, 1)]` has a non-decreasing `y` sequence with final value `≤ 1`,
yet the builder does not map `-1` to `-100`: the product is clamped to `0`. -/
theorem cdfPairs_scaleByFinal_cex :
    ((sortByX [⟨0, -1⟩, ⟨10, 1⟩]).map Point.y).Sorted (· ≤ ·) ∧
    (sortByX [⟨0, -1⟩, ⟨10, 1⟩]).getLast? = some ⟨10, 1⟩ ∧
    cdfPairsToPercentSeries (some [(some 0, some (-1)), (some 10, some 1)]) =
      some [⟨0, 0⟩, ⟨10, 100⟩] ∧
    cdfPairsToPercentSeries (some [(some 0, some (-1)), (some 10, some 1)]) ≠
      some [⟨0, -100⟩, ⟨10, 100⟩] := by
  refine ⟨by decide, by decide, ?_, ?_⟩
  · simp [cdfPairsToPercentSeries, finitePair, sortByX, List.insertionSort,
      List.orderedInsert, ptLE, clampPercent, jsMin, jsMax]
    norm_num
  · simp [cdfPairsToPercentSeries, finitePair, sortByX, List.insertionSort,
      List.orderedInsert, ptLE, clampPercent, jsMin, jsMax]
    norm_num

/-- Claim C3 (amended): for a pair array whose `y` sequence is non-decreasing
after sorting by `x` and whose final `y` is `≤ 1`, the builder multiplies
every `y` by 100 and clamps the product into `[0, 100]` (so products are kept
exactly whenever every `y` is non-negative). -/
theorem cdfPairs_scaleByFinal (pts : List Point) (hne : pts ≠ [])
    (hmono : ((sortByX pts).map Point.y).Sorted (· ≤ ·))
    (hlast : ∀ q ∈ (sortByX pts).getLast?, q.y ≤ 1) :
    cdfPairsToPercentSeries (some (pts.map fun p => ((some p.x, some p.y) : RawPair))) =
      some ((sortByX pts).map fun p => ⟨p.x, clampPercent (p.y * 100)⟩) := by
  have hsne : sortByX pts ≠ [] := by
    intro h
    exact hne ((h ▸ sortByX_perm pts).symm.eq_nil)
  have hylast : ∀ p ∈ sortByX pts, p.y ≤ 1 := by
    intro p hp
    rcases List.getLast?_isSome.mpr hsne |> Option.isSome_iff_exists.mp with ⟨q, hq⟩
    exact le_trans (sorted_all_le_last hmono p.y (List.mem_map_of_mem Point.y hp)
      q.y (by rw [List.getLast?_map, hq]; rfl)) (hlast q hq)
  rw [cdfPairsToPercentSeries]
  have hmne : pts.map (fun p => ((some p.x, some p.y) : RawPair)) ≠ [] := by
    simpa using hne
  rw [if_neg hmne, filterMap_finitePair_map]
  have hmap : (sortByX pts).map
      (fun d => (⟨d.x, clampPercent (if d.y ≤ 1 then d.y * 100 else d.y)⟩ : Point)) =
      (sortByX pts).map (fun p => ⟨p.x, clampPercent (p.y * 100)⟩) := by
    apply List.map_congr_left
    intro p hp
    rw [if_pos (hylast p hp)]
  rw [hmap, if_neg (by simpa using hsne)]

/-- Witness for C3 at the spec's example `[(0, 0.1), (10, 1.0)]`, including the
claimed output `[(0, 10), (10, 100)]`. -/
theorem cdfPairs_scaleByFinal_witness :
    (([⟨0, 1/10⟩, ⟨10, 1⟩] : List Point) ≠ []) ∧
    ((sortByX [⟨0, 1/10⟩, ⟨10, 1⟩]).map Point.y).Sorted (· ≤ ·) ∧
    (∀ q ∈ (sortByX [⟨0, 1/10⟩, ⟨10, 1⟩]).getLast?, q.y ≤ 1) ∧
    cdfPairsToPercentSeries
        (some (([⟨0, 1/10⟩, ⟨10, 1⟩] : List Point).map
          fun p => ((some p.x, some p.y) : RawPair))) =
      some ((sortByX [⟨0, 1/10⟩, ⟨10, 1⟩]).map fun p => ⟨p.x, clampPercent (p.y * 100)⟩) ∧
    cdfPairsToPercentSeries (some [(some 0, some (1/10)), (some 10, some 1)]) =
      some [⟨0, 10⟩, ⟨10, 100⟩] := by
  have hfix : sortByX ([⟨0, 1/10⟩, ⟨10, 1⟩] : List Point) = [⟨0, 1/10⟩, ⟨10, 1⟩] :=
    sortByX_eq_self (by decide)
  have hmono : ((sortByX ([⟨0, 1/10⟩, ⟨10, 1⟩] : List Point)).map Point.y).Sorted (· ≤ ·) := by
    rw [hfix]
    norm_num [List.sorted_cons]
  have hlast : ∀ q ∈ (sortByX ([⟨0, 1/10⟩, ⟨10, 1⟩] : List Point)).getLast?, q.y ≤ 1 := by
    rw [hfix]
    intro q hq
    simp only [List.getLast?_cons_cons, List.getLast?_singleton, Option.mem_def,
      Option.some.injEq] at hq
    rw [← hq]
  refine ⟨by simp, hmono, hlast,
    cdfPairs_scaleByFinal [⟨0, 1/10⟩, ⟨10, 1⟩] (by simp) hmono hlast, ?_⟩
  simp [cdfPairsToPercentSeries, finitePair, sortByX, List.insertionSort,
    List.orderedInsert, ptLE, clampPercent, jsMin, jsMax]
  norm_num

/-- Counterexample to claim C4 as stated: `[(0, 0.5), (10, 50)]` has strictly
increasing `x`, strictly increasing `y` within `[0, 100]` and final `y`
greater than 1, yet the builder rescales the entry with `y = 0.5 ≤ 1`
(scale detection is per element, not by the final value), so the array is not
a fixed point. -/
theorem cdfPairs_fixedPoint_cex :
    ((([⟨0, 1/2⟩, ⟨10, 50⟩] : List Point).map Point.x).Sorted (· < ·)) ∧
    ((([⟨0, 1/2⟩, ⟨10, 50⟩] : List Point).map Point.y).Sorted (· < ·)) ∧
    ((0 : ℚ) ≤ 1/2 ∧ (1/2 : ℚ) ≤ 100 ∧ (0 : ℚ) ≤ 50 ∧ (50 : ℚ) ≤ 100 ∧ (1 : ℚ) < 50) ∧
    cdfPairsToPercentSeries (some [(some 0, some (1/2)), (some 10, some 50)]) =
      some [⟨0, 50⟩, ⟨10, 50⟩] ∧
    cdfPairsToPercentSeries (some [(some 0, some (1/2)), (some 10, some 50)]) ≠
      some [⟨0, 1/2⟩, ⟨10, 50⟩] := by
  refine ⟨by decide, by norm_num [List.sorted_cons], by norm_num, ?_, ?_⟩
  · simp [cdfPairsToPercentSeries, finitePair, sortByX, List.insertionSort,
      List.orderedInsert, ptLE, clampPercent, jsMin, jsMax]
    norm_num
  · simp [cdfPairsToPercentSeries, finitePair, sortByX, List.insertionSort,
      List.orderedInsert, ptLE, clampPercent, jsMin, jsMax]
    norm_num

/-- Claim C4 (amended): an array of points with strictly increasing `x` and
strictly increasing `y`, every `y` greater than 1 and at most 100, is a fixed
point of the pair builder (the per-element scale check `y ≤ 1` never fires
and the clamp is the identity on `(1, 100]`). -/
theorem cdfPairs_fixedPoint (pts : List Point) (hne : pts ≠ [])
    (hx : (pts.map Point.x).Sorted (· < ·))
    (hy : (pts.map Point.y).Sorted (· < ·))
    (hb : ∀ p ∈ pts, 1 < p.y ∧ p.y ≤ 100) :
    cdfPairsToPercentSeries (some (pts.map fun p => ((some p.x, some p.y) : RawPair))) =
      some pts := by
  have hsorted : pts.Sorted ptLE := by
    rw [List.Sorted, List.pairwise_map] at hx
    exact hx.imp le_of_lt
  have hfix : sortByX pts = pts := sortByX_eq_self hsorted
  rw [cdfPairsToPercentSeries, if_neg (by simpa using hne), filterMap_finitePair_map, hfix]
  have hmap : pts.map
      (fun d => (⟨d.x, clampPercent (if d.y ≤ 1 then d.y * 100 else d.y)⟩ : Point)) =
      pts := by
    have : pts.map
        (fun d => (⟨d.x, clampPercent (if d.y ≤ 1 then d.y * 100 else d.y)⟩ : Point)) =
        pts.map (fun d => d) := by
      apply List.map_congr_left
      intro p hp
      rcases hb p hp with ⟨h1, h100⟩
      rw [if_neg (not_le.mpr h1), clampPercent_eq, min_eq_right h100,
        max_eq_right (le_trans (by norm_num) h1.le)]
    rw [this]
    exact List.map_id' pts
  rw [hmap, if_neg (by simpa using hne)]

/-- Witness for C4 at the spec's example `[(0,10), (5,50), (10,100)]`. -/
theorem cdfPairs_fixedPoint_witness :
    (([⟨0, 10⟩, ⟨5, 50⟩, ⟨10, 100⟩] : List Point) ≠ []) ∧
    ((([⟨0, 10⟩, ⟨5, 50⟩, ⟨10, 100⟩] : List Point).map Point.x).Sorted (· < ·)) ∧
    ((([⟨0, 10⟩, ⟨5, 50⟩, ⟨10, 100⟩] : List Point).map Point.y).Sorted (· < ·)) ∧
    (∀ p ∈ ([⟨0, 10⟩, ⟨5, 50⟩, ⟨10, 100⟩] : List Point), 1 < p.y ∧ p.y ≤ 100) ∧
    cdfPairsToPercentSeries
        (some (([⟨0, 10⟩, ⟨5, 50⟩, ⟨10, 100⟩] : List Point).map
          fun p => ((some p.x, some p.y) : RawPair))) =
      some [⟨0, 10⟩, ⟨5, 50⟩, ⟨10, 100⟩] :=
  ⟨by decide, by decide, by decide, by decide,
    cdfPairs_fixedPoint [⟨0, 10⟩, ⟨5, 50⟩, ⟨10, 100⟩]
      (by decide) (by decide) (by decide) (by decide)⟩

/-! ### Degenerate payloads (claim C6) -/

theorem finitePair_eq_none {p : RawPair} (h : p.1 = none ∨ p.2 = none) :
    finitePair p = none := by
  rcases p with ⟨x, y⟩
  rcases h with h | h
  · rw [show x = none from h]
    cases y <;> rfl
  · rw [show y = none from h]
    cases x <;> rfl

/-- Degenerate-payload behaviour of the value-processing cores: empty,
non-array, non-parsable, or entirely-non-finite inputs all yield `null`.
(Helper for claim C6; the error path of the pair builders lives in the
`…JS` wrappers and is treated there.) -/
theorem builders_degenerate_null :
    ecdfFromValues none = none ∧
    ecdfFromValues (some []) = none ∧
    (∀ l : List (Option ℚ), (∀ v ∈ l, v = none) → ecdfFromValues (some l) = none) ∧
    cdfPairsToPercentSeries none = none ∧
    cdfPairsToPercentSeries (some []) = none ∧
    (∀ l : List RawPair, (∀ p ∈ l, p.1 = none ∨ p.2 = none) →
      cdfPairsToPercentSeries (some l) = none) ∧
    parseHalfPPR .notString = none ∧
    parseHalfPPR .unparsable = none ∧
    parseHalfPPR .nonArray = none ∧
    parseHalfPPR (.array []) = none ∧
    (∀ bins : List RawPair, (∀ p ∈ bins, p.1 = none ∨ p.2 = none) →
      parseHalfPPR (.array bins) = none) := by
  refine ⟨rfl, rfl, ?_, rfl, rfl, ?_, rfl, rfl, rfl, rfl, ?_⟩
  · intro l h
    by_cases hl : l = []
    · rw [hl]
      rfl
    · have hfe : l.filterMap id = [] := by
        rw [List.filterMap_eq_nil_iff]
        intro a ha
        rw [h a ha]
        rfl
      rw [ecdfFromValues]
      rw [if_neg hl, hfe]
      rfl
  · intro l h
    by_cases hl : l = []
    · rw [hl]
      rfl
    · have hfe : l.filterMap finitePair = [] := by
        rw [List.filterMap_eq_nil_iff]
        exact fun p hp => finitePair_eq_none (h p hp)
      rw [cdfPairsToPercentSeries]
      rw [if_neg hl, hfe]
      rfl
  · intro bins h
    have hfe : bins.filterMap finitePair = [] := by
      rw [List.filterMap_eq_nil_iff]
      exact fun p hp => finitePair_eq_none (h p hp)
    rw [parseHalfPPR]
    simp only [hfe]
    rfl

/-! ### Axis planner (claim C9) -/

theorem foldl_jsMax_le : ∀ (l : List ℚ) (a c : ℚ), a ≤ c → (∀ v ∈ l, v ≤ c) →
    l.foldl jsMax a ≤ c
  | [], _, _, ha, _ => ha
  | x :: xs, a, c, ha, h => by
    rw [List.foldl_cons]
    refine foldl_jsMax_le xs (jsMax a x) c ?_ fun v hv => h v (by simp [hv])
    rw [jsMax_eq]
    exact max_le ha (h x (by simp))

theorem le_foldl_jsMax_init : ∀ (l : List ℚ) (a : ℚ), a ≤ l.foldl jsMax a
  | [], _ => le_refl _
  | x :: xs, a => by
    rw [List.foldl_cons]
    refine le_trans ?_ (le_foldl_jsMax_init xs (jsMax a x))
    rw [jsMax_eq]
    exact le_max_left a x

theorem le_foldl_jsMax_mem : ∀ (l : List ℚ) (a v : ℚ), v ∈ l → v ≤ l.foldl jsMax a
  | [], _, _, hv => by simp at hv
  | x :: xs, a, v, hv => by
    rw [List.foldl_cons]
    rcases List.mem_cons.mp hv with rfl | hv'
    · refine le_trans ?_ (le_foldl_jsMax_init xs (jsMax a v))
      rw [jsMax_eq]
      exact le_max_right a v
    · exact le_foldl_jsMax_mem xs (jsMax a x) v hv'

theorem foldl_jsMax_cases : ∀ (l : List ℚ) (a : ℚ),
    l.foldl jsMax a = a ∨ l.foldl jsMax a ∈ l
  | [], _ => Or.inl rfl
  | x :: xs, a => by
    rw [List.foldl_cons]
    rcases foldl_jsMax_cases xs (jsMax a x) with h | h
    · rw [h, jsMax]
      by_cases hax : a ≤ x
      · rw [if_pos hax]
        exact Or.inr (by simp)
      · rw [if_neg hax]
        exact Or.inl rfl
    · exact Or.inr (by simp [h])

theorem maxList_le {l : List ℚ} {c : ℚ} (hne : l ≠ []) (h : ∀ v ∈ l, v ≤ c) :
    maxList l ≤ c := by
  cases l with
  | nil => exact absurd rfl hne
  | cons a t => exact foldl_jsMax_le t a c (h a (by simp)) fun v hv => h v (by simp [hv])

theorem le_maxList {l : List ℚ} {v : ℚ} (hv : v ∈ l) : v ≤ maxList l := by
  cases l with
  | nil => simp at hv
  | cons a t =>
    rcases List.mem_cons.mp hv with rfl | hv'
    · exact le_foldl_jsMax_init t v
    · exact le_foldl_jsMax_mem t a v hv'

theorem maxList_mem {l : List ℚ} (hne : l ≠ []) : maxList l ∈ l := by
  cases l with
  | nil => exact absurd rfl hne
  | cons a t =>
    rcases foldl_jsMax_cases t a with h | h
    · rw [maxList, h]
      simp
    · rw [maxList]
      simp [h]

/-- The claim's "largest merged y value" is taken over this list: every
non-`null` `A` or `B` entry of the merged rows, in row order. -/
def allYs (rows : List MergedRow) : List ℚ :=
  rows.foldr (fun r acc => r.A.toList ++ r.B.toList ++ acc) []

theorem mem_allYs {rows : List MergedRow} {y : ℚ} :
    y ∈ allYs rows ↔ ∃ r ∈ rows, r.A = some y ∨ r.B = some y := by
  induction rows with
  | nil => simp [allYs]
  | cons r t ih =>
    rw [allYs, List.foldr_cons]
    constructor
    · intro h
      rcases List.mem_append.mp h with h' | h'
      · rcases List.mem_append.mp h' with h'' | h''
        · exact ⟨r, by simp, Or.inl (by cases hA : r.A <;> simp [hA] at h'' <;> rw [h''])⟩
        · exact ⟨r, by simp, Or.inr (by cases hB : r.B <;> simp [hB] at h'' <;> rw [h''])⟩
      · rcases ih.mp h' with ⟨r', hr', hor⟩
        exact ⟨r', by simp [hr'], hor⟩
    · rintro ⟨r', hr', hor⟩
      rcases List.mem_cons.mp hr' with rfl | hr''
      · rcases hor with h' | h'
        · exact List.mem_append.mpr (Or.inl (List.mem_append.mpr (Or.inl (by simp [h']))))
        · exact List.mem_append.mpr (Or.inl (List.mem_append.mpr (Or.inr (by simp [h']))))
      · exact List.mem_append.mpr (Or.inr (ih.mpr ⟨r', hr'', hor⟩))

/-- Claim C9: for a non-empty merged series with at least one non-`null`
value, the planned y-axis maximum is the default ceiling 20 when the largest
merged `y` is at most 20, and otherwise the smallest multiple of 10 at or
above the largest merged `y`. -/
theorem maxYValue_spec (rows : List MergedRow) (hne : rows ≠ [])
    (hv : allYs rows ≠ []) :
    (maxList (allYs rows) ≤ 20 → maxYValue rows = 20) ∧
    (20 < maxList (allYs rows) →
      (∃ k : ℤ, maxYValue rows = 10 * k) ∧
      maxList (allYs rows) ≤ maxYValue rows ∧
      ∀ k : ℤ, maxList (allYs rows) ≤ 10 * k → maxYValue rows ≤ 10 * k) := by
  set M := maxList (allYs rows) with hM
  have hmapA : rows.map (fun d => d.A.getD 0) ≠ [] := by simpa using hne
  have hmapB : rows.map (fun d => d.B.getD 0) ≠ [] := by simpa using hne
  set maxA := maxList (rows.map fun d => d.A.getD 0) with hmaxA
  set maxB := maxList (rows.map fun d => d.B.getD 0) with hmaxB
  have hboundA : ∀ c, 0 ≤ c → M ≤ c → maxA ≤ c := by
    intro c hc hMc
    refine maxList_le hmapA ?_
    intro v hvmem
    rcases List.mem_map.mp hvmem with ⟨r, hr, rfl⟩
    cases hA : r.A with
    | none => simpa [hA] using hc
    | some y =>
      have : y ∈ allYs rows := mem_allYs.mpr ⟨r, hr, Or.inl hA⟩
      simpa [hA] using le_trans (le_maxList this) hMc
  have hboundB : ∀ c, 0 ≤ c → M ≤ c → maxB ≤ c := by
    intro c hc hMc
    refine maxList_le hmapB ?_
    intro v hvmem
    rcases List.mem_map.mp hvmem with ⟨r, hr, rfl⟩
    cases hB : r.B with
    | none => simpa [hB] using hc
    | some y =>
      have : y ∈ allYs rows := mem_allYs.mpr ⟨r, hr, Or.inr hB⟩
      simpa [hB] using le_trans (le_maxList this) hMc
  constructor
  · intro h20
    rw [maxYValue, if_neg hne]
    have : jsMax maxA maxB ≤ 20 := by
      rw [jsMax_eq]
      exact max_le (hboundA 20 (by norm_num) h20) (hboundB 20 (by norm_num) h20)
    rw [if_neg (not_lt.mpr this)]
  · intro h20
    have hMpos : (0 : ℚ) ≤ M := le_trans (by norm_num) h20.le
    have hMmem : M ∈ allYs rows := maxList_mem hv
    rcases mem_allYs.mp hMmem with ⟨r, hr, hor⟩
    have hMleV : M ≤ jsMax maxA maxB := by
      rw [jsMax_eq]
      rcases hor with h' | h'
      · refine le_trans ?_ (le_max_left maxA maxB)
        refine le_maxList (List.mem_map.mpr ⟨r, hr, ?_⟩)
        rw [h']
        rfl
      · refine le_trans ?_ (le_max_right maxA maxB)
        refine le_maxList (List.mem_map.mpr ⟨r, hr, ?_⟩)
        rw [h']
        rfl
    have hVleM : jsMax maxA maxB ≤ M := by
      rw [jsMax_eq]
      exact max_le (hboundA M hMpos (le_refl M)) (hboundB M hMpos (le_refl M))
    have hVM : jsMax maxA maxB = M := le_antisymm hVleM hMleV
    simp only [maxYValue, if_neg hne]
    rw [hVM, if_pos h20]
    refine ⟨⟨⌈M / 10⌉, by ring⟩, ?_, ?_⟩
    · have h1 : M / 10 ≤ ((⌈M / 10⌉ : ℤ) : ℚ) := Int.le_ceil (M / 10)
      rw [div_le_iff (by norm_num : (0:ℚ) < 10)] at h1
      linarith
    · intro k hk
      have h1 : M / 10 ≤ (k : ℚ) := by
        rw [div_le_iff (by norm_num : (0:ℚ) < 10)]
        linarith
      have h2 : ⌈M / 10⌉ ≤ k := Int.ceil_le.mpr h1
      have h3 : ((⌈M / 10⌉ : ℤ) : ℚ) ≤ (k : ℚ) := by exact_mod_cast h2
      linarith

/-- Witness for C9 at the spec's examples: a merged maximum of 35 extends the
axis to 40, a merged maximum of 15 keeps the default ceiling 20. -/
theorem maxYValue_spec_witness :
    ([⟨0, some 35, none⟩] : List MergedRow) ≠ [] ∧
    allYs [⟨0, some 35, none⟩] ≠ [] ∧
    (20 : ℚ) < maxList (allYs [⟨0, some 35, none⟩]) ∧
    maxList (allYs [⟨0, some 35, none⟩]) ≤ maxYValue [⟨0, some 35, none⟩] ∧
    (∀ k : ℤ, maxList (allYs [⟨0, some 35, none⟩]) ≤ 10 * k →
      maxYValue [⟨0, some 35, none⟩] ≤ 10 * k) ∧
    maxYValue [⟨0, some 35, none⟩] = 40 ∧
    maxYValue [⟨0, some 15, some 12⟩] = 20 := by
  have h35 := maxYValue_spec [⟨0, some 35, none⟩] (by decide) (by decide)
  have h15 := maxYValue_spec [⟨0, some 15, some 12⟩] (by decide) (by decide)
  have hM : maxList (allYs [⟨0, some 35, none⟩]) = 35 := by decide
  have hMlt : (20 : ℚ) < maxList (allYs [⟨0, some 35, none⟩]) := by
    rw [hM]
    norm_num
  have h4 : ⌈(7 : ℚ) / 2⌉ = (4 : ℤ) :=
    Int.ceil_eq_iff.mpr ⟨by norm_num, by norm_num⟩
  refine ⟨by decide, by decide, hMlt, (h35.2 hMlt).2.1, (h35.2 hMlt).2.2, ?_, ?_⟩
  · rw [maxYValue]
    norm_num [maxList, allYs, jsMax, h4]
  · exact h15.1 (by decide)

/-! ### The ECDF grouping loop (claims C2, C5, C10) -/

theorem mem_takeWhile_eq {x : ℚ} {rest : List ℚ} :
    ∀ v ∈ rest.takeWhile (fun v => v = x), v = x := by
  intro v hv
  have := List.mem_takeWhile_imp hv
  simpa using this

theorem sorted_dropWhile_gt {x : ℚ} : ∀ {rest : List ℚ},
    (x :: rest).Sorted (· ≤ ·) → ∀ v ∈ rest.dropWhile (fun v => v = x), x < v := by
  intro rest
  induction rest with
  | nil =>
    intro _ v hv
    simp [List.dropWhile] at hv
  | cons b t ih =>
    intro hs v hv
    rcases List.sorted_cons.mp hs with ⟨hxall, hbt⟩
    by_cases hbx : b = x
    · subst hbx
      rw [List.dropWhile_cons_of_pos (by simp)] at hv
      have hs' : (b :: t).Sorted (· ≤ ·) := by
        rw [List.sorted_cons]
        exact ⟨fun c hc => le_trans (le_refl b) (List.rel_of_sorted_cons hbt c hc), hbt.of_cons⟩
      exact ih hs' v hv
    · rw [List.dropWhile_cons_of_neg (by simpa using hbx)] at hv
      have hxb : x < b := lt_of_le_of_ne (hxall b (by simp)) (fun h => hbx h.symm)
      rcases List.mem_cons.mp hv with rfl | hv'
      · exact hxb
      · exact lt_of_lt_of_le hxb (List.rel_of_sorted_cons hbt v hv')

theorem ecdfGroup_mem_x (n : ℕ) : ∀ (seen : ℕ) (l : List ℚ) (a : ℚ),
    a ∈ (ecdfGroup n seen l).map Point.x ↔ a ∈ l
  | _, [], a => by simp [ecdfGroup]
  | seen, x :: rest, a => by
    rw [ecdfGroup]
    simp only [List.map_cons, List.mem_cons]
    rw [ecdfGroup_mem_x n _ (rest.dropWhile (fun v => v = x)) a]
    constructor
    · rintro (rfl | h)
      · exact Or.inl rfl
      · exact Or.inr ((List.dropWhile_suffix _).sublist.mem h)
    · rintro (rfl | h)
      · exact Or.inl rfl
      · rw [← List.takeWhile_append_dropWhile (fun v => v = x) rest] at h
        rcases List.mem_append.mp h with h' | h'
        · exact Or.inl (mem_takeWhile_eq a h')
        · exact Or.inr h'
termination_by seen l a => l.length
decreasing_by
  simp only [List.length_cons]
  exact Nat.lt_succ_of_le ((List.dropWhile_suffix _).sublist.length_le)

theorem sorted_dropWhile_sorted {x : ℚ} {rest : List ℚ}
    (hs : (x :: rest).Sorted (· ≤ ·)) :
    (rest.dropWhile (fun v => v = x)).Sorted (· ≤ ·) :=
  List.Pairwise.sublist ((List.dropWhile_suffix _).sublist) hs.of_cons

theorem ecdfGroup_y_eq (n : ℕ) : ∀ (seen : ℕ) (l : List ℚ), l.Sorted (· ≤ ·) →
    ∀ p ∈ ecdfGroup n seen l,
      p.y = (((seen + l.countP (fun v => v ≤ p.x) : ℕ) : ℚ) / (n : ℚ)) * 100
  | _, [], _, p, hp => by simp [ecdfGroup] at hp
  | seen, x :: rest, hs, p, hp => by
    rw [ecdfGroup] at hp
    have hcount_dups : (rest.takeWhile (fun v => v = x)).countP (fun v => v ≤ x) =
        (rest.takeWhile (fun v => v = x)).length := by
      rw [List.countP_eq_length]
      intro a ha
      have := mem_takeWhile_eq a ha
      simp [this]
    rcases List.mem_cons.mp hp with rfl | hp'
    · have hcount0 : (rest.dropWhile (fun v => v = x)).countP (fun v => v ≤ x) = 0 := by
        rw [List.countP_eq_zero]
        intro a ha
        have := sorted_dropWhile_gt hs a ha
        simp [not_le.mpr this]
      have hc : (x :: rest).countP
          (fun v => v ≤ (⟨x, ((seen + (rest.takeWhile (fun v => v = x)).length + 1 : ℕ) :
            ℚ) / (n : ℚ) * 100⟩ : Point).x) =
          (rest.takeWhile (fun v => v = x)).length + 1 := by
        show (x :: rest).countP (fun v => v ≤ x) = _
        rw [List.countP_cons]
        conv_lhs => rw [← List.takeWhile_append_dropWhile (fun v => v = x) rest]
        rw [List.countP_append, hcount_dups, hcount0]
        simp
      rw [hc]
      push_cast
      ring
    · have hs' : (rest.dropWhile (fun v => v = x)).Sorted (· ≤ ·) :=
        sorted_dropWhile_sorted hs
      have ih := ecdfGroup_y_eq n (seen + (rest.takeWhile (fun v => v = x)).length + 1)
        (rest.dropWhile (fun v => v = x)) hs' p hp'
      have hpx : x < p.x := by
        have hmem : p.x ∈ rest.dropWhile (fun v => v = x) := by
          rw [← ecdfGroup_mem_x n (seen + (rest.takeWhile (fun v => v = x)).length + 1)]
          exact List.mem_map_of_mem Point.x hp'
        exact sorted_dropWhile_gt hs p.x hmem
      have hcdups : (rest.takeWhile (fun v => v = x)).countP (fun v => v ≤ p.x) =
          (rest.takeWhile (fun v => v = x)).length := by
        rw [List.countP_eq_length]
        intro a ha
        have := mem_takeWhile_eq a ha
        subst this
        simp [hpx.le]
      have hc : (x :: rest).countP (fun v => v ≤ p.x) =
          (rest.takeWhile (fun v => v = x)).length + 1 +
            (rest.dropWhile (fun v => v = x)).countP (fun v => v ≤ p.x) := by
        rw [List.countP_cons]
        conv_lhs => rw [← List.takeWhile_append_dropWhile (fun v => v = x) rest]
        rw [List.countP_append, hcdups]
        simp [hpx.le]
        omega
      rw [ih, hc]
      congr 2
      push_cast
      ring
termination_by seen l => l.length
decreasing_by
  simp only [List.length_cons]
  exact Nat.lt_succ_of_le ((List.dropWhile_suffix _).sublist.length_le)

theorem ecdfGroup_x_sorted (n : ℕ) : ∀ (seen : ℕ) (l : List ℚ), l.Sorted (· ≤ ·) →
    ((ecdfGroup n seen l).map Point.x).Sorted (· < ·)
  | _, [], _ => by simp [ecdfGroup]
  | seen, x :: rest, hs => by
    rw [ecdfGroup]
    simp only [List.map_cons]
    rw [List.sorted_cons]
    refine ⟨?_, ecdfGroup_x_sorted n _ _ (sorted_dropWhile_sorted hs)⟩
    intro b hb
    rw [ecdfGroup_mem_x] at hb
    exact sorted_dropWhile_gt hs b hb
termination_by seen l => l.length
decreasing_by
  simp only [List.length_cons]
  exact Nat.lt_succ_of_le ((List.dropWhile_suffix _).sublist.length_le)

theorem ecdfGroup_ne_nil (n seen : ℕ) {l : List ℚ} (h : l ≠ []) :
    ecdfGroup n seen l ≠ [] := by
  cases l with
  | nil => exact absurd rfl h
  | cons x rest =>
    rw [ecdfGroup]
    simp

theorem ecdfGroup_getLast_y (n : ℕ) : ∀ (seen : ℕ) (l : List ℚ), l ≠ [] →
    ((ecdfGroup n seen l).getLast?).map Point.y =
      some (((seen + l.length : ℕ) : ℚ) / (n : ℚ) * 100)
  | _, [], h => absurd rfl h
  | seen, x :: rest, _ => by
    rw [ecdfGroup]
    have hsplit : (rest.takeWhile (fun v => v = x)).length +
        (rest.dropWhile (fun v => v = x)).length = rest.length := by
      conv_rhs => rw [← List.takeWhile_append_dropWhile (fun v => v = x) rest]
      rw [List.length_append]
    by_cases hr : rest.dropWhile (fun v => v = x) = []
    · rw [hr]
      rw [show ecdfGroup n (seen + (rest.takeWhile (fun v => v = x)).length + 1) [] = []
        from by simp [ecdfGroup]]
      simp only [List.getLast?_singleton, Option.map_some']
      have hdrop0 : (rest.dropWhile (fun v => v = x)).length = 0 := by
        rw [hr]
        rfl
      have hnat : seen + (rest.takeWhile (fun v => v = x)).length + 1 =
          seen + (x :: rest).length := by
        rw [List.length_cons]
        omega
      rw [hnat]
    · rw [getLast?_cons_or]
      have hne2 := ecdfGroup_ne_nil n
        (seen + (rest.takeWhile (fun v => v = x)).length + 1) hr
      have hsome : (ecdfGroup n (seen + (rest.takeWhile (fun v => v = x)).length + 1)
          (rest.dropWhile (fun v => v = x))).getLast?.isSome :=
        List.getLast?_isSome.mpr hne2
      rcases Option.isSome_iff_exists.mp hsome with ⟨q, hq⟩
      have ih := ecdfGroup_getLast_y n (seen + (rest.takeWhile (fun v => v = x)).length + 1)
        (rest.dropWhile (fun v => v = x)) hr
      have hnat : seen + (rest.takeWhile (fun v => v = x)).length + 1 +
          (rest.dropWhile (fun v => v = x)).length = seen + (x :: rest).length := by
        rw [List.length_cons]
        omega
      rw [hnat] at ih
      rw [hq] at ih ⊢
      simpa using ih
termination_by seen l => l.length
decreasing_by
  simp only [List.length_cons]
  exact Nat.lt_succ_of_le ((List.dropWhile_suffix _).sublist.length_le)

theorem ecdfGroup_y_sorted (n : ℕ) (hn : 0 < n) : ∀ (seen : ℕ) (l : List ℚ),
    l.Sorted (· ≤ ·) → ((ecdfGroup n seen l).map Point.y).Sorted (· < ·)
  | _, [], _ => by simp [ecdfGroup]
  | seen, x :: rest, hs => by
    rw [ecdfGroup]
    simp only [List.map_cons]
    rw [List.sorted_cons]
    refine ⟨?_, ecdfGroup_y_sorted n hn _ _ (sorted_dropWhile_sorted hs)⟩
    intro b hb
    rcases List.mem_map.mp hb with ⟨q, hq, rfl⟩
    have hs' := sorted_dropWhile_sorted hs
    have hy := ecdfGroup_y_eq n (seen + (rest.takeWhile (fun v => v = x)).length + 1)
      (rest.dropWhile (fun v => v = x)) hs' q hq
    have hqx : q.x ∈ rest.dropWhile (fun v => v = x) := by
      rw [← ecdfGroup_mem_x n (seen + (rest.takeWhile (fun v => v = x)).length + 1)]
      exact List.mem_map_of_mem Point.x hq
    have hcnt : 0 < (rest.dropWhile (fun v => v = x)).countP (fun v => v ≤ q.x) :=
      List.countP_pos_iff.mpr ⟨q.x, hqx, by simp⟩
    rw [hy]
    have h1 : ((seen + (rest.takeWhile (fun v => v = x)).length + 1 : ℕ) : ℚ) <
        ((seen + (rest.takeWhile (fun v => v = x)).length + 1 +
          (rest.dropWhile (fun v => v = x)).countP (fun v => v ≤ q.x) : ℕ) : ℚ) := by
      exact_mod_cast Nat.lt_add_of_pos_right hcnt
    have h2 : (0 : ℚ) < (n : ℚ) := by exact_mod_cast hn
    exact mul_lt_mul_of_pos_right ((div_lt_div_right h2).mpr h1) (by norm_num)
termination_by seen l => l.length
decreasing_by
  simp only [List.length_cons]
  exact Nat.lt_succ_of_le ((List.dropWhile_suffix _).sublist.length_le)

theorem ecdfGroup_y_bounds (l : List ℚ) (hs : l.Sorted (· ≤ ·)) (hne : l ≠ []) :
    ∀ p ∈ ecdfGroup l.length 0 l, 0 < p.y ∧ p.y ≤ 100 := by
  intro p hp
  have hy := ecdfGroup_y_eq l.length 0 l hs p hp
  have hpx : p.x ∈ l := by
    rw [← ecdfGroup_mem_x l.length 0]
    exact List.mem_map_of_mem Point.x hp
  have hcnt1 : 0 < l.countP (fun v => v ≤ p.x) :=
    List.countP_pos_iff.mpr ⟨p.x, hpx, by simp⟩
  have hcntn : l.countP (fun v => v ≤ p.x) ≤ l.length := List.countP_le_length _
  have hn : 0 < l.length := List.length_pos.mpr hne
  have h2 : (0 : ℚ) < (l.length : ℚ) := by exact_mod_cast hn
  rw [hy]
  simp only [Nat.zero_add]
  constructor
  · have h1 : (0 : ℚ) < ((l.countP (fun v => v ≤ p.x) : ℕ) : ℚ) := by exact_mod_cast hcnt1
    positivity
  · have h1 : ((l.countP (fun v => v ≤ p.x) : ℕ) : ℚ) ≤ ((l.length : ℕ) : ℚ) := by
      exact_mod_cast hcntn
    have : ((l.countP (fun v => v ≤ p.x) : ℕ) : ℚ) / (l.length : ℚ) ≤ 1 :=
      (div_le_one h2).mpr h1
    calc ((l.countP (fun v => v ≤ p.x) : ℕ) : ℚ) / (l.length : ℚ) * 100 ≤ 1 * 100 :=
        mul_le_mul_of_nonneg_right this (by norm_num)
      _ = 100 := by norm_num

theorem ecdfFromValues_eq_some (l : List (Option ℚ)) (hfin : l.filterMap id ≠ []) :
    ecdfFromValues (some l) =
      some (ecdfGroup ((l.filterMap id).insertionSort (· ≤ ·)).length 0
        ((l.filterMap id).insertionSort (· ≤ ·))) := by
  have hl : l ≠ [] := by
    intro h
    rw [h] at hfin
    exact hfin rfl
  have hins : (l.filterMap id).insertionSort (· ≤ ·) ≠ [] := by
    intro h
    exact hfin ((h ▸ List.perm_insertionSort (· ≤ ·) (l.filterMap id)).symm.eq_nil)
  simp only [ecdfFromValues]
  rw [if_neg hl, if_neg hins]

/-- Claim C2: for a sample list with at least one finite value, the raw-sample
builder returns one point per distinct finite sample value, with `y` equal to
the count of finite samples at or below `x`, divided by the total count of
finite samples, times 100. -/
theorem ecdf_cumulative (l : List (Option ℚ)) (hfin : l.filterMap id ≠ []) :
    ∃ s, ecdfFromValues (some l) = some s ∧
      (s.map Point.x).Nodup ∧
      (∀ v : ℚ, v ∈ s.map Point.x ↔ some v ∈ l) ∧
      ∀ p ∈ s, p.y = ((l.filterMap id).countP (fun v => v ≤ p.x) : ℚ) /
        ((l.filterMap id).length : ℚ) * 100 := by
  refine ⟨_, ecdfFromValues_eq_some l hfin, ?_, ?_, ?_⟩
  all_goals
    have hsorted : ((l.filterMap id).insertionSort (· ≤ ·)).Sorted (· ≤ ·) :=
      List.sorted_insertionSort (· ≤ ·) (l.filterMap id)
    have hperm : List.Perm ((l.filterMap id).insertionSort (· ≤ ·)) (l.filterMap id) :=
      List.perm_insertionSort (· ≤ ·) (l.filterMap id)
  · exact (ecdfGroup_x_sorted _ 0 _ hsorted).nodup
  · intro v
    rw [ecdfGroup_mem_x, hperm.mem_iff, List.mem_filterMap]
    constructor
    · rintro ⟨a, ha, hav⟩
      rw [show a = some v from hav] at ha
      exact ha
    · intro hv
      exact ⟨some v, hv, rfl⟩
  · intro p hp
    rw [ecdfGroup_y_eq _ 0 _ hsorted p hp]
    rw [Nat.zero_add, hperm.countP_eq, hperm.length_eq]

/-- Witness for C2 at the spec's sample list `[1,1,2,3,3,3]`, whose points
carry the cumulative percentages `100/3`, `50` and `100`. -/
theorem ecdf_cumulative_witness :
    (([some 1, some 1, some 2, some 3, some 3, some 3] :
        List (Option ℚ)).filterMap id ≠ []) ∧
    (∃ s, ecdfFromValues (some [some 1, some 1, some 2, some 3, some 3, some 3]) =
        some s ∧
      (s.map Point.x).Nodup ∧
      (∀ v : ℚ, v ∈ s.map Point.x ↔
        some v ∈ ([some 1, some 1, some 2, some 3, some 3, some 3] :
          List (Option ℚ))) ∧
      ∀ p ∈ s, p.y = ((([some 1, some 1, some 2, some 3, some 3, some 3] :
          List (Option ℚ)).filterMap id).countP (fun v => v ≤ p.x) : ℚ) /
        ((([some 1, some 1, some 2, some 3, some 3, some 3] :
          List (Option ℚ)).filterMap id).length : ℚ) * 100) ∧
    ecdfFromValues (some [some 1, some 1, some 2, some 3, some 3, some 3]) =
      some [⟨1, 100/3⟩, ⟨2, 50⟩, ⟨3, 100⟩] := by
  refine ⟨by decide, ecdf_cumulative _ (by decide), ?_⟩
  simp [ecdfFromValues, ecdfGroup]
  norm_num

/-- Claim C10: for a sample list with at least one value coercing to a finite
number, the raw-sample builder returns a series with strictly increasing `x`,
strictly increasing `y`, and final `y` exactly 100. -/
theorem ecdf_strict (l : List (Option ℚ)) (hfin : l.filterMap id ≠ []) :
    ∃ s, ecdfFromValues (some l) = some s ∧
      (s.map Point.x).Sorted (· < ·) ∧
      (s.map Point.y).Sorted (· < ·) ∧
      (s.getLast?).map Point.y = some 100 := by
  refine ⟨_, ecdfFromValues_eq_some l hfin, ?_, ?_, ?_⟩
  all_goals
    have hsorted : ((l.filterMap id).insertionSort (· ≤ ·)).Sorted (· ≤ ·) :=
      List.sorted_insertionSort (· ≤ ·) (l.filterMap id)
    have hins : (l.filterMap id).insertionSort (· ≤ ·) ≠ [] := by
      intro h
      exact hfin ((h ▸ List.perm_insertionSort (· ≤ ·) (l.filterMap id)).symm.eq_nil)
    have hn : 0 < ((l.filterMap id).insertionSort (· ≤ ·)).length :=
      List.length_pos.mpr hins
  · exact ecdfGroup_x_sorted _ 0 _ hsorted
  · exact ecdfGroup_y_sorted _ hn 0 _ hsorted
  · rw [ecdfGroup_getLast_y _ 0 _ hins]
    have h2 : (0 : ℚ) < (((l.filterMap id).insertionSort (· ≤ ·)).length : ℚ) := by
      exact_mod_cast hn
    rw [Nat.zero_add, div_self h2.ne']
    norm_num

/-- Witness for C10 at the sample list `[NaN, 5, 2, 2]` (one non-finite
entry): the series is `[(2, 200/3), (5, 100)]`. -/
theorem ecdf_strict_witness :
    (([none, some 5, some 2, some 2] : List (Option ℚ)).filterMap id ≠ []) ∧
    (∃ s, ecdfFromValues (some [none, some 5, some 2, some 2]) = some s ∧
      (s.map Point.x).Sorted (· < ·) ∧
      (s.map Point.y).Sorted (· < ·) ∧
      (s.getLast?).map Point.y = some 100) ∧
    ecdfFromValues (some [none, some 5, some 2, some 2]) =
      some [⟨2, 200/3⟩, ⟨5, 100⟩] := by
  refine ⟨by decide, ecdf_strict _ (by decide), ?_⟩
  simp only [ecdfFromValues]
  norm_num
  refine ⟨by decide, ?_⟩
  simp [ecdfGroup]
  norm_num

/-! ### Series invariants (claim C5) -/

theorem clampPercent_nonneg (v : ℚ) : 0 ≤ clampPercent v := by
  rw [clampPercent_eq]
  exact le_max_left 0 _

theorem clampPercent_le (v : ℚ) : clampPercent v ≤ 100 := by
  rw [clampPercent_eq]
  exact max_le (by norm_num) (min_le_left _ _)

theorem cumRun_map_x (scale : ℚ) : ∀ (cum : ℚ) (l : List Point),
    (cumRun scale cum l).map Point.x = l.map Point.x
  | _, [] => rfl
  | cum, b :: rest => by
    rw [cumRun, List.map_cons, List.map_cons, cumRun_map_x scale _ rest]

theorem cumRun_y_bounds (scale : ℚ) : ∀ (cum : ℚ) (l : List Point),
    ∀ p ∈ cumRun scale cum l, 0 ≤ p.y ∧ p.y ≤ 100
  | _, [], p, hp => by simp [cumRun] at hp
  | cum, b :: rest, p, hp => by
    rw [cumRun] at hp
    rcases List.mem_cons.mp hp with rfl | hp'
    · exact ⟨clampPercent_nonneg _, clampPercent_le _⟩
    · exact cumRun_y_bounds scale _ rest p hp'

/-- The spec's Normalized Series invariant, exactly as claim C5 states it. -/
def normalizedSeriesInv (s : List Point) : Prop :=
  (s.map Point.x).Sorted (· ≤ ·) ∧ (s.map Point.y).Sorted (· ≤ ·) ∧
    (∀ p ∈ s, 0 ≤ p.y ∧ p.y ≤ 100) ∧ (s.map Point.x).Nodup

/-- Counterexample to claim C5 as stated: `buildSeries` (part_003) performs no
clamping, no cumulative check and no deduplication, so a payload with an
out-of-range, decreasing, duplicated-`x` tail is passed through as-is. -/
theorem buildSeries_invariant_cex :
    buildSeries (some [(some 1, some 500), (some 0, some 600), (some 1, some (-5))]) =
      some [⟨0, 600⟩, ⟨1, 500⟩, ⟨1, -5⟩] ∧
    ¬ normalizedSeriesInv [⟨0, 600⟩, ⟨1, 500⟩, ⟨1, -5⟩] := by
  constructor
  · decide
  · intro h
    have := (h.2.2.1 ⟨1, -5⟩ (by simp)).1
    norm_num at this

/-- Claim C5 (amended): every non-null series is ordered non-decreasing in
`x`; the clamping builders (`cdfPairsToPercentSeries`, `parseHalfPPR`)
additionally keep every `y` within `[0, 100]`; the raw-sample ECDF builder
additionally yields strictly increasing `x` (hence deduplicated) and strictly
increasing `y` within `(0, 100]`.  `buildSeries` guarantees the ordering
only. -/
theorem builders_series_invariants :
    (∀ (arr : Option (List RawPair)) (s : List Point),
      cdfPairsToPercentSeries arr = some s →
        (s.map Point.x).Sorted (· ≤ ·) ∧ ∀ p ∈ s, 0 ≤ p.y ∧ p.y ≤ 100) ∧
    (∀ (pl : HalfPPRPayload) (s : List Point), parseHalfPPR pl = some s →
        (s.map Point.x).Sorted (· ≤ ·) ∧ ∀ p ∈ s, 0 ≤ p.y ∧ p.y ≤ 100) ∧
    (∀ (data : Option (List RawPair)) (s : List Point), buildSeries data = some s →
        (s.map Point.x).Sorted (· ≤ ·)) ∧
    (∀ (values : Option (List (Option ℚ))) (s : List Point),
      ecdfFromValues values = some s →
        (s.map Point.x).Sorted (· < ·) ∧ (s.map Point.y).Sorted (· < ·) ∧
          ∀ p ∈ s, 0 < p.y ∧ p.y ≤ 100) := by
  refine ⟨?_, ?_, ?_, ?_⟩
  · intro arr s h
    cases arr with
    | none => simp [cdfPairsToPercentSeries] at h
    | some l =>
      simp only [cdfPairsToPercentSeries] at h
      split at h
      · exact absurd h (by simp)
      · split at h
        · exact absurd h (by simp)
        · rw [Option.some_inj] at h
          subst h
          constructor
          · rw [List.map_map]
            exact sortByX_map_x_sorted _
          · intro p hp
            rcases List.mem_map.mp hp with ⟨d, _, rfl⟩
            exact ⟨clampPercent_nonneg _, clampPercent_le _⟩
  · intro pl s h
    cases pl with
    | notString => simp [parseHalfPPR] at h
    | unparsable => simp [parseHalfPPR] at h
    | nonArray => simp [parseHalfPPR] at h
    | array arr =>
      simp only [parseHalfPPR] at h
      split at h
      · exact absurd h (by simp)
      · split at h
        · rw [Option.some_inj] at h
          subst h
          constructor
          · rw [List.map_map]
            exact sortByX_map_x_sorted _
          · intro p hp
            rcases List.mem_map.mp hp with ⟨d, _, rfl⟩
            exact ⟨clampPercent_nonneg _, clampPercent_le _⟩
        · rw [Option.some_inj] at h
          subst h
          constructor
          · rw [cumRun_map_x]
            exact sortByX_map_x_sorted _
          · exact cumRun_y_bounds _ _ _
  · intro data s h
    cases data with
    | none => simp [buildSeries] at h
    | some l =>
      simp only [buildSeries] at h
      split at h
      · exact absurd h (by simp)
      · split at h
        · exact absurd h (by simp)
        · rw [Option.some_inj] at h
          subst h
          exact sortByX_map_x_sorted _
  · intro values s h
    cases values with
    | none => simp [ecdfFromValues] at h
    | some l =>
      simp only [ecdfFromValues] at h
      split at h
      · exact absurd h (by simp)
      · split at h
        · exact absurd h (by simp)
        · rw [Option.some_inj] at h
          subst h
          rename_i hl hnums
          have hsorted : ((l.filterMap id).insertionSort (· ≤ ·)).Sorted (· ≤ ·) :=
            List.sorted_insertionSort (· ≤ ·) (l.filterMap id)
          have hn : 0 < ((l.filterMap id).insertionSort (· ≤ ·)).length :=
            List.length_pos.mpr hnums
          exact ⟨ecdfGroup_x_sorted _ 0 _ hsorted, ecdfGroup_y_sorted _ hn 0 _ hsorted,
            ecdfGroup_y_bounds _ hsorted hnums⟩

/-- Witness for C5: one concrete payload through each builder. -/
theorem builders_series_invariants_witness :
    cdfPairsToPercentSeries (some [(some 0, some 50)]) = some [⟨0, 50⟩] ∧
    ((([⟨0, 50⟩] : List Point).map Point.x).Sorted (· ≤ ·) ∧
      ∀ p ∈ ([⟨0, 50⟩] : List Point), 0 ≤ p.y ∧ p.y ≤ 100) ∧
    parseHalfPPR (.array [(some 1, some 30), (some 0, some 20)]) =
      some [⟨0, 20⟩, ⟨1, 30⟩] ∧
    ((([⟨0, 20⟩, ⟨1, 30⟩] : List Point).map Point.x).Sorted (· ≤ ·) ∧
      ∀ p ∈ ([⟨0, 20⟩, ⟨1, 30⟩] : List Point), 0 ≤ p.y ∧ p.y ≤ 100) ∧
    buildSeries (some [(some 2, some 7)]) = some [⟨2, 7⟩] ∧
    (([⟨2, 7⟩] : List Point).map Point.x).Sorted (· ≤ ·) ∧
    ecdfFromValues (some [some 4]) = some [⟨4, 100⟩] ∧
    ((([⟨4, 100⟩] : List Point).map Point.x).Sorted (· < ·) ∧
      (([⟨4, 100⟩] : List Point).map Point.y).Sorted (· < ·) ∧
      ∀ p ∈ ([⟨4, 100⟩] : List Point), 0 < p.y ∧ p.y ≤ 100) := by
  have hcdf : cdfPairsToPercentSeries (some [(some 0, some 50)]) = some [⟨0, 50⟩] := by
    decide
  have hphr : parseHalfPPR (.array [(some 1, some 30), (some 0, some 20)]) =
      some [⟨0, 20⟩, ⟨1, 30⟩] := by
    simp [parseHalfPPR, finitePair, sortByX, List.insertionSort, List.orderedInsert,
      ptLE, nonDecrY, clampPercent, jsMin, jsMax]
    norm_num
    decide
  have hbs : buildSeries (some [(some 2, some 7)]) = some [⟨2, 7⟩] := by decide
  have hecdf : ecdfFromValues (some [some 4]) = some [⟨4, 100⟩] := by
    simp [ecdfFromValues, ecdfGroup]
  exact ⟨hcdf, builders_series_invariants.1 _ _ hcdf, hphr,
    builders_series_invariants.2.1 _ _ hphr, hbs,
    builders_series_invariants.2.2.1 _ _ hbs, hecdf,
    builders_series_invariants.2.2.2 _ _ hecdf⟩

/-! ### Stat resolver (claim C7) -/

/-- Modelled from the claim: the maximal score among a candidate list. -/
def maxScoreOf (r : Rule) (cands : List (String × JSVal)) : ℕ :=
  (cands.map fun c => scoreOf r c.2).foldr max 0

/-- Modelled from the claim: the first candidate, in traversal order,
achieving the maximal score. -/
def firstMaxCandidate (r : Rule) (cands : List (String × JSVal)) :
    Option (String × JSVal) :=
  cands.find? fun c => maxScoreOf r cands ≤ scoreOf r c.2

/-- Modelled from the claim: the resolver's specified result — the value of
the first surviving flattened key achieving the maximal score, `undefined`
when no key survives the include/exclude rules. -/
def resolveSpec (obj : JSVal) (r : Rule) : JSVal :=
  match obj with
  | .varr _ | .vobj _ =>
    match firstMaxCandidate r
        ((flattenObject obj "" []).filter fun p => keyMatches r p.1) with
    | some c => c.2
    | none => .vundefined
  | _ => .vundefined

theorem maxScoreOf_cons (r : Rule) (b : String × JSVal) (l : List (String × JSVal)) :
    maxScoreOf r (b :: l) = max (scoreOf r b.2) (maxScoreOf r l) := rfl

theorem scoreOf_le_maxScoreOf (r : Rule) {c : String × JSVal}
    {l : List (String × JSVal)} (hc : c ∈ l) : scoreOf r c.2 ≤ maxScoreOf r l := by
  induction l with
  | nil => simp at hc
  | cons d t ih =>
    rw [maxScoreOf_cons]
    rcases List.mem_cons.mp hc with rfl | hc'
    · exact le_max_left _ _
    · exact le_trans (ih hc') (le_max_right _ _)

theorem resolveLoop_some (r : Rule) : ∀ (cands : List (String × JSVal)),
    (∀ c ∈ cands, keyMatches r c.1 = true) → ∀ b : String × JSVal,
    resolveLoop r cands (some b) = firstMaxCandidate r (b :: cands)
  | [], _, b => by
    simp [resolveLoop, firstMaxCandidate, maxScoreOf]
  | c :: cs, hall, b => by
    have hkc : keyMatches r c.1 = true := hall c (by simp)
    have hall' : ∀ d ∈ cs, keyMatches r d.1 = true := fun d hd => hall d (by simp [hd])
    have hcc : (c.1, c.2) = c := rfl
    rw [show (c :: cs) = ((c.1, c.2) :: cs) from by rw [hcc]]
    rw [resolveLoop]
    simp only [hkc, if_true, hcc]
    by_cases hsc : scoreOf r b.2 < scoreOf r c.2
    · rw [if_pos hsc, resolveLoop_some r cs hall' c]
      have hscN : scoreOf r c.2 ≤ maxScoreOf r (c :: cs) :=
        scoreOf_le_maxScoreOf r (by simp)
      have hmax : maxScoreOf r (b :: c :: cs) = maxScoreOf r (c :: cs) := by
        rw [maxScoreOf_cons r b (c :: cs)]
        omega
      have hbf : List.find? (fun d => decide (maxScoreOf r (c :: cs) ≤ scoreOf r d.2))
          (b :: c :: cs) =
          List.find? (fun d => decide (maxScoreOf r (c :: cs) ≤ scoreOf r d.2))
            (c :: cs) :=
        List.find?_cons_of_neg _ (by simp only [decide_eq_true_eq, not_le]; omega)
      rw [firstMaxCandidate, firstMaxCandidate, hmax, hbf]
    · rw [if_neg hsc, resolveLoop_some r cs hall' b]
      have hscb : scoreOf r c.2 ≤ scoreOf r b.2 := not_lt.mp hsc
      have hmax : maxScoreOf r (b :: c :: cs) = maxScoreOf r (b :: cs) := by
        rw [maxScoreOf_cons r b (c :: cs), maxScoreOf_cons r c cs,
          maxScoreOf_cons r b cs]
        omega
      rw [firstMaxCandidate, firstMaxCandidate, hmax]
      by_cases hPb : maxScoreOf r (b :: cs) ≤ scoreOf r b.2
      · have h1 : List.find? (fun d => decide (maxScoreOf r (b :: cs) ≤ scoreOf r d.2))
            (b :: cs) = some b :=
          List.find?_cons_of_pos _ (by simpa using hPb)
        have h2 : List.find? (fun d => decide (maxScoreOf r (b :: cs) ≤ scoreOf r d.2))
            (b :: c :: cs) = some b :=
          List.find?_cons_of_pos _ (by simpa using hPb)
        rw [h1, h2]
      · have h1 : List.find? (fun d => decide (maxScoreOf r (b :: cs) ≤ scoreOf r d.2))
            (b :: cs) =
            List.find? (fun d => decide (maxScoreOf r (b :: cs) ≤ scoreOf r d.2)) cs :=
          List.find?_cons_of_neg _ (by simpa using hPb)
        have h2 : List.find? (fun d => decide (maxScoreOf r (b :: cs) ≤ scoreOf r d.2))
            (b :: c :: cs) =
            List.find? (fun d => decide (maxScoreOf r (b :: cs) ≤ scoreOf r d.2))
              (c :: cs) :=
          List.find?_cons_of_neg _ (by simpa using hPb)
        have h3 : List.find? (fun d => decide (maxScoreOf r (b :: cs) ≤ scoreOf r d.2))
            (c :: cs) =
            List.find? (fun d => decide (maxScoreOf r (b :: cs) ≤ scoreOf r d.2)) cs :=
          List.find?_cons_of_neg _ (by simp only [decide_eq_true_eq, not_le]; omega)
        rw [h1, h2, h3]

theorem resolveLoop_none (r : Rule) (cands : List (String × JSVal))
    (hall : ∀ c ∈ cands, keyMatches r c.1 = true) :
    resolveLoop r cands none = firstMaxCandidate r cands := by
  cases cands with
  | nil => rfl
  | cons c cs =>
    have hkc : keyMatches r c.1 = true := hall c (by simp)
    have hall' : ∀ d ∈ cs, keyMatches r d.1 = true := fun d hd => hall d (by simp [hd])
    have hcc : (c.1, c.2) = c := rfl
    rw [show (c :: cs) = ((c.1, c.2) :: cs) from by rw [hcc]]
    rw [resolveLoop]
    simp only [hkc, if_true, hcc]
    exact resolveLoop_some r cs hall' c

theorem resolveLoop_filter (r : Rule) : ∀ (l : List (String × JSVal))
    (best : Option (String × JSVal)),
    resolveLoop r l best = resolveLoop r (l.filter fun p => keyMatches r p.1) best
  | [], best => by cases best <;> rfl
  | (k, v) :: rest, best => by
    by_cases km : keyMatches r k = true
    · rw [List.filter_cons_of_pos (by simpa using km)]
      cases best with
      | none =>
        rw [resolveLoop, resolveLoop]
        simp only [km, if_true]
        exact resolveLoop_filter r rest _
      | some b =>
        rw [resolveLoop, resolveLoop]
        simp only [km, if_true]
        by_cases hsc : scoreOf r b.2 < scoreOf r v
        · rw [if_pos hsc, if_pos hsc]
          exact resolveLoop_filter r rest _
        · rw [if_neg hsc, if_neg hsc]
          exact resolveLoop_filter r rest _
    · have km' : keyMatches r k = false := by
        simpa using km
      rw [List.filter_cons_of_neg (by simpa using km)]
      cases best with
      | none =>
        rw [resolveLoop]
        simp only [km', Bool.false_eq_true, if_false]
        exact resolveLoop_filter r rest none
      | some b =>
        rw [resolveLoop]
        simp only [km', Bool.false_eq_true, if_false]
        exact resolveLoop_filter r rest (some b)

/-- Claim C7: resolution is deterministic — the resolver is a pure function,
and its result is exactly the value of the first surviving flattened key (in
the flattened map's insertion order) achieving the maximal score, or
`undefined` when no key survives. -/
theorem resolveByRegexFlat_firstMax (obj : JSVal) (r : Rule) :
    resolveByRegexFlat obj r = resolveByRegexFlat obj r ∧
    resolveByRegexFlat obj r = resolveSpec obj r := by
  refine ⟨rfl, ?_⟩
  have hbody : ∀ o : JSVal,
      (match resolveLoop r (flattenObject o "" []) none with
        | some b => b.2
        | none => JSVal.vundefined) =
      (match firstMaxCandidate r
          ((flattenObject o "" []).filter fun p => keyMatches r p.1) with
        | some c => c.2
        | none => JSVal.vundefined) := by
    intro o
    rw [resolveLoop_filter r (flattenObject o "" []) none,
      resolveLoop_none r _ (fun c hc => (List.mem_filter.mp hc).2)]
  cases obj with
  | varr l => exact hbody (.varr l)
  | vobj fs => exact hbody (.vobj fs)
  | vnull => rfl
  | vundefined => rfl
  | vbool b => rfl
  | vnum q => rfl
  | vstr s => rfl

/-! ### Flattener (claim C8) -/

mutual

/-- Modelled from the claim: the (dot-joined path, value) list of the leaves
of one object entry, in depth-first order — an object value contributes the
leaves of its fields, anything else is itself a leaf. -/
def leavesEntry (k : String) (v : JSVal) (pre : String) : List (String × JSVal) :=
  match v with
  | .vobj fs => leavesFields fs (joinKey pre k)
  | _ => [(joinKey pre k, v)]

/-- Modelled from the claim: the leaves of an object's field list. -/
def leavesFields (fs : List (String × JSVal)) (pre : String) : List (String × JSVal) :=
  match fs with
  | [] => []
  | (k, v) :: rest => leavesEntry k v pre ++ leavesFields rest pre

end

/-- Modelled from the claim: the leaves of a root array. -/
def leavesArr (l : List JSVal) (i : ℕ) (pre : String) : List (String × JSVal) :=
  match l with
  | [] => []
  | v :: rest => leavesEntry (toString i) v pre ++ leavesArr rest (i + 1) pre

/-- Modelled from the claim: every leaf of a record paired with its
dot-joined path, in the flattener's traversal order. -/
def leaves (v : JSVal) (pre : String) : List (String × JSVal) :=
  match v with
  | .vnull => []
  | .vundefined => []
  | .varr l => leavesArr l 0 pre
  | .vobj fs => leavesFields fs pre
  | v => [(pre, v)]

/-- Repeated JavaScript assignment `out[k] = v` over a list of entries. -/
def appAll (out : List (String × JSVal)) (l : List (String × JSVal)) :
    List (String × JSVal) :=
  l.foldl (fun o kv => objAssign o kv.1 kv.2) out

theorem appAll_append (out : List (String × JSVal)) (l1 l2 : List (String × JSVal)) :
    appAll out (l1 ++ l2) = appAll (appAll out l1) l2 :=
  List.foldl_append _ _ l1 l2

mutual

theorem flattenFields_eq_appAll : ∀ (fs : List (String × JSVal)) (pre : String)
    (out : List (String × JSVal)),
    flattenFields fs pre out = appAll out (leavesFields fs pre)
  | [], _, _ => rfl
  | (k, v) :: rest, pre, out => by
    show flattenFields rest pre (flattenEntry k v pre out) = _
    rw [flattenEntry_eq_appAll k v pre out, flattenFields_eq_appAll rest pre _]
    show _ = appAll out (leavesEntry k v pre ++ leavesFields rest pre)
    rw [appAll_append]

theorem flattenEntry_eq_appAll : ∀ (k : String) (v : JSVal) (pre : String)
    (out : List (String × JSVal)),
    flattenEntry k v pre out = appAll out (leavesEntry k v pre)
  | k, .vobj fs, pre, out => flattenFields_eq_appAll fs (joinKey pre k) out
  | _, .vnull, _, _ => rfl
  | _, .vundefined, _, _ => rfl
  | _, .vbool _, _, _ => rfl
  | _, .vnum _, _, _ => rfl
  | _, .vstr _, _, _ => rfl
  | _, .varr _, _, _ => rfl

end

theorem flattenArr_eq_appAll : ∀ (l : List JSVal) (i : ℕ) (pre : String)
    (out : List (String × JSVal)),
    flattenArr l i pre out = appAll out (leavesArr l i pre)
  | [], _, _, _ => rfl
  | v :: rest, i, pre, out => by
    show flattenArr rest (i + 1) pre (flattenEntry (toString i) v pre out) = _
    rw [flattenEntry_eq_appAll, flattenArr_eq_appAll rest (i + 1) pre _]
    show _ = appAll out (leavesEntry (toString i) v pre ++ leavesArr rest (i + 1) pre)
    rw [appAll_append]

theorem flattenObject_eq_appAll (v : JSVal) (pre : String)
    (out : List (String × JSVal)) :
    flattenObject v pre out = appAll out (leaves v pre) := by
  cases v with
  | vnull => rfl
  | vundefined => rfl
  | vbool b => rfl
  | vnum q => rfl
  | vstr s => rfl
  | varr l => exact flattenArr_eq_appAll l 0 pre out
  | vobj fs => exact flattenFields_eq_appAll fs pre out

theorem objAssign_of_fresh {out : List (String × JSVal)} {k : String} (v : JSVal)
    (h : ∀ p ∈ out, p.1 ≠ k) : objAssign out k v = out ++ [(k, v)] := by
  rw [objAssign, if_neg]
  rw [List.any_eq_true]
  rintro ⟨p, hp, hpk⟩
  exact h p hp (by simpa using hpk)

theorem appAll_of_fresh : ∀ (L out : List (String × JSVal)),
    (L.map Prod.fst).Nodup → (∀ kv ∈ L, ∀ p ∈ out, p.1 ≠ kv.1) →
    appAll out L = out ++ L
  | [], out, _, _ => by simp [appAll]
  | (k, v) :: rest, out, hnd, hdis => by
    show appAll (objAssign out k v) rest = _
    rw [objAssign_of_fresh v (fun p hp => hdis (k, v) (by simp) p hp)]
    rw [List.map_cons, List.nodup_cons] at hnd
    rw [appAll_of_fresh rest (out ++ [(k, v)]) hnd.2 ?_]
    · rw [List.append_assoc]
      rfl
    · intro kv hkv p hp
      rcases List.mem_append.mp hp with hp' | hp'
      · exact hdis kv (by simp [hkv]) p hp'
      · rw [List.mem_singleton.mp hp']
        intro hcontra
        exact hnd.1 (hcontra ▸ List.mem_map_of_mem Prod.fst hkv)

/-- Helper: value-kind test used to state "record with no nested objects". -/
def isObjVal : JSVal → Bool
  | .vobj _ => true
  | _ => false

theorem leavesFields_of_flat : ∀ (fs : List (String × JSVal)),
    (∀ kv ∈ fs, isObjVal kv.2 = false) → leavesFields fs "" = fs
  | [], _ => rfl
  | (k, v) :: rest, h => by
    have hv : isObjVal v = false := h (k, v) (by simp)
    have hjk : joinKey "" k = k := if_pos rfl
    have hrest := leavesFields_of_flat rest (fun kv hkv => h kv (by simp [hkv]))
    show leavesEntry k v "" ++ leavesFields rest "" = _
    rw [hrest]
    cases v with
    | vobj fs' => simp [isObjVal] at hv
    | vnull => show [(joinKey "" k, JSVal.vnull)] ++ rest = _; rw [hjk]; rfl
    | vundefined => show [(joinKey "" k, JSVal.vundefined)] ++ rest = _; rw [hjk]; rfl
    | vbool b => show [(joinKey "" k, JSVal.vbool b)] ++ rest = _; rw [hjk]; rfl
    | vnum q => show [(joinKey "" k, JSVal.vnum q)] ++ rest = _; rw [hjk]; rfl
    | vstr s => show [(joinKey "" k, JSVal.vstr s)] ++ rest = _; rw [hjk]; rfl
    | varr l => show [(joinKey "" k, JSVal.varr l)] ++ rest = _; rw [hjk]; rfl

/-- Counterexample to claim C8 as stated: in the record
`{a: {b: 1}, "a.b": 2}` the nested leaf `1` and the top-level key `"a.b"`
dot-join to the same flattened key, so the leaf `1` is overwritten and is not
reachable under any flattened key. -/
theorem flattenObject_collision_cex :
    flattenObject (.vobj [("a", .vobj [("b", .vnum (some 1))]),
        ("a.b", .vnum (some 2))]) "" [] = [("a.b", JSVal.vnum (some 2))] ∧
    leaves (.vobj [("a", .vobj [("b", .vnum (some 1))]), ("a.b", .vnum (some 2))]) "" =
      [("a.b", JSVal.vnum (some 1)), ("a.b", JSVal.vnum (some 2))] ∧
    JSVal.vnum (some 1) ≠ JSVal.vnum (some 2) := by
  refine ⟨rfl, rfl, ?_⟩
  simp

/-- Claim C8 (amended): provided the dot-joined paths of the record's leaves
are pairwise distinct, the flattened mapping is exactly the leaf-path/value
list — every leaf value reachable under exactly its one dot-joined key — and
flattening a record with no nested objects (and distinct keys) is the
identity. -/
theorem flattenObject_leaves_exact :
    (∀ v : JSVal, ((leaves v "").map Prod.fst).Nodup →
      flattenObject v "" [] = leaves v "") ∧
    (∀ fs : List (String × JSVal), (fs.map Prod.fst).Nodup →
      (∀ kv ∈ fs, isObjVal kv.2 = false) →
      flattenObject (.vobj fs) "" [] = fs) := by
  constructor
  · intro v hnd
    rw [flattenObject_eq_appAll, appAll_of_fresh (leaves v "") [] hnd (by simp)]
    rfl
  · intro fs hnd hflat
    have hlf : leavesFields fs "" = fs := leavesFields_of_flat fs hflat
    rw [show flattenObject (.vobj fs) "" [] = flattenFields fs "" [] from rfl,
      flattenFields_eq_appAll, hlf, appAll_of_fresh fs [] hnd (by simp)]
    rfl

/-- Witness for C8: a nested record with distinct dotted paths, and a flat
record with two scalar fields. -/
theorem flattenObject_leaves_exact_witness :
    ((leaves (.vobj [("a", .vobj [("b", .vnum (some 1))]), ("c", .vnum (some 2))])
        "").map Prod.fst).Nodup ∧
    flattenObject (.vobj [("a", .vobj [("b", .vnum (some 1))]), ("c", .vnum (some 2))])
        "" [] =
      leaves (.vobj [("a", .vobj [("b", .vnum (some 1))]), ("c", .vnum (some 2))]) "" ∧
    (([("p", JSVal.vnum (some 3)), ("q", JSVal.vstr "hi")] :
        List (String × JSVal)).map Prod.fst).Nodup ∧
    (∀ kv ∈ ([("p", JSVal.vnum (some 3)), ("q", JSVal.vstr "hi")] :
        List (String × JSVal)), isObjVal kv.2 = false) ∧
    flattenObject (.vobj [("p", JSVal.vnum (some 3)), ("q", JSVal.vstr "hi")]) "" [] =
      [("p", JSVal.vnum (some 3)), ("q", JSVal.vstr "hi")] := by
  refine ⟨by decide, ?_, by decide, by decide, ?_⟩
  · exact flattenObject_leaves_exact.1
      (.vobj [("a", .vobj [("b", .vnum (some 1))]), ("c", .vnum (some 2))]) (by decide)
  · exact flattenObject_leaves_exact.2
      [("p", JSVal.vnum (some 3)), ("q", JSVal.vstr "hi")] (by decide) (by decide)

/-! ### Degenerate and throwing payloads (claim C6) -/

theorem filterMap_coords_all_nonfinite {l : List PairElem}
    (h : ∀ e ∈ l, ∃ c : RawPair, e = .elem c ∧ (c.1 = none ∨ c.2 = none)) :
    ∀ p ∈ l.filterMap PairElem.coords, p.1 = none ∨ p.2 = none := by
  intro p hp
  rcases List.mem_filterMap.mp hp with ⟨e, he, hep⟩
  rcases h e he with ⟨c, rfl, hc⟩
  rw [show c = p from by simpa [PairElem.coords] using hep] at hc
  exact hc

theorem any_isNullish_false {l : List PairElem}
    (h : ∀ e ∈ l, ∃ c : RawPair, e = .elem c ∧ (c.1 = none ∨ c.2 = none)) :
    l.any PairElem.isNullish = false := by
  rw [List.any_eq_false]
  intro e he
  rcases h e he with ⟨c, rfl, _⟩
  simp [PairElem.isNullish]

/-- Counterexample to claim C6 as stated: the JSON-representable array
payload `[null]` contains no pair with both coordinates finite, yet instead
of returning `null` the pair builders throw a `TypeError` — at `Number(d.x)`
in `cdfPairsToPercentSeries`, and at `Number(b.pts)` in `parseHalfPPR`,
outside the `try` that guards only `JSON.parse`. -/
theorem pairBuilders_throw_cex :
    cdfPairsToPercentSeriesJS (some [PairElem.nullish]) = JsResult.thrown ∧
    parseHalfPPRJS (.array [PairElem.nullish]) = JsResult.thrown ∧
    JsResult.thrown ≠ JsResult.ret (none : Option (List Point)) := by
  refine ⟨rfl, rfl, ?_⟩
  decide

/-- Claim C6 (amended): empty, non-array, non-parsable, or
entirely-non-finite payloads whose array elements are not `null`/`undefined`
make every builder return `null` without throwing; the raw-sample builder
never throws on any payload; but an array payload containing a
`null`/`undefined` element makes `cdfPairsToPercentSeries` and
`parseHalfPPR` throw a `TypeError` at the element property access. -/
theorem builders_degenerate_or_throw :
    ecdfFromValues none = none ∧
    ecdfFromValues (some []) = none ∧
    (∀ l : List (Option ℚ), (∀ v ∈ l, v = none) → ecdfFromValues (some l) = none) ∧
    cdfPairsToPercentSeriesJS none = .ret none ∧
    cdfPairsToPercentSeriesJS (some []) = .ret none ∧
    (∀ l : List PairElem,
      (∀ e ∈ l, ∃ c : RawPair, e = .elem c ∧ (c.1 = none ∨ c.2 = none)) →
      cdfPairsToPercentSeriesJS (some l) = .ret none) ∧
    (∀ l : List PairElem, PairElem.nullish ∈ l →
      cdfPairsToPercentSeriesJS (some l) = .thrown) ∧
    parseHalfPPRJS .notString = .ret none ∧
    parseHalfPPRJS .unparsable = .ret none ∧
    parseHalfPPRJS .nonArray = .ret none ∧
    parseHalfPPRJS (.array []) = .ret none ∧
    (∀ elems : List PairElem,
      (∀ e ∈ elems, ∃ c : RawPair, e = .elem c ∧ (c.1 = none ∨ c.2 = none)) →
      parseHalfPPRJS (.array elems) = .ret none) ∧
    (∀ elems : List PairElem, PairElem.nullish ∈ elems →
      parseHalfPPRJS (.array elems) = .thrown) := by
  refine ⟨builders_degenerate_null.1, builders_degenerate_null.2.1,
    builders_degenerate_null.2.2.1, rfl, rfl, ?_, ?_, rfl, rfl, rfl, rfl, ?_, ?_⟩
  · intro l h
    by_cases hl : l = []
    · rw [hl]
      rfl
    · rw [cdfPairsToPercentSeriesJS]
      rw [if_neg hl, any_isNullish_false h]
      simp only [Bool.false_eq_true, if_false]
      rw [builders_degenerate_null.2.2.2.2.2.1 (l.filterMap PairElem.coords)
        (filterMap_coords_all_nonfinite h)]
  · intro l hmem
    rw [cdfPairsToPercentSeriesJS]
    rw [if_neg (List.ne_nil_of_mem hmem),
      if_pos (List.any_eq_true.mpr ⟨PairElem.nullish, hmem, rfl⟩)]
  · intro elems h
    rw [parseHalfPPRJS]
    rw [any_isNullish_false h]
    simp only [Bool.false_eq_true, if_false]
    rw [(builders_degenerate_null.2.2.2.2.2.2.2.2.2.2) (elems.filterMap PairElem.coords)
      (filterMap_coords_all_nonfinite h)]
  · intro elems hmem
    rw [parseHalfPPRJS]
    rw [if_pos (List.any_eq_true.mpr ⟨PairElem.nullish, hmem, rfl⟩)]

/-- Witness for C6: two entirely-non-finite element lists return `null`
through both pair builders and the raw-sample builder, and a `[null]`
payload throws through both pair builders. -/
theorem builders_degenerate_or_throw_witness :
    (∀ v ∈ ([none, none] : List (Option ℚ)), v = none) ∧
    ecdfFromValues (some [none, none]) = none ∧
    (∀ e ∈ [PairElem.elem (none, some 5), PairElem.elem (some 3, none)],
      ∃ c : RawPair, e = .elem c ∧ (c.1 = none ∨ c.2 = none)) ∧
    cdfPairsToPercentSeriesJS
      (some [PairElem.elem (none, some 5), PairElem.elem (some 3, none)]) =
      .ret none ∧
    parseHalfPPRJS (.array [PairElem.elem (none, some 5)]) = .ret none ∧
    PairElem.nullish ∈ [PairElem.nullish] ∧
    cdfPairsToPercentSeriesJS (some [PairElem.nullish]) = .thrown ∧
    parseHalfPPRJS (.array [PairElem.nullish]) = .thrown := by
  have hmix : ∀ e ∈ [PairElem.elem (none, some 5), PairElem.elem (some 3, none)],
      ∃ c : RawPair, e = .elem c ∧ (c.1 = none ∨ c.2 = none) := by
    intro e he
    rcases List.mem_cons.mp he with rfl | he'
    · exact ⟨(none, some 5), rfl, Or.inl rfl⟩
    · rcases List.mem_cons.mp he' with rfl | he''
      · exact ⟨(some 3, none), rfl, Or.inr rfl⟩
      · simp at he''
  have hone : ∀ e ∈ [PairElem.elem ((none, some 5) : RawPair)],
      ∃ c : RawPair, e = .elem c ∧ (c.1 = none ∨ c.2 = none) := by
    intro e he
    rcases List.mem_singleton.mp he with rfl
    exact ⟨(none, some 5), rfl, Or.inl rfl⟩
  exact ⟨by decide, builders_degenerate_or_throw.2.2.1 [none, none] (by decide),
    hmix, builders_degenerate_or_throw.2.2.2.2.2.1 _ hmix,
    builders_degenerate_or_throw.2.2.2.2.2.2.2.2.2.2.2.1 _ hone,
    by decide,
    builders_degenerate_or_throw.2.2.2.2.2.2.1 [PairElem.nullish] (by decide),
    builders_degenerate_or_throw.2.2.2.2.2.2.2.2.2.2.2.2 [PairElem.nullish] (by decide)⟩
